import Mathlib

/-!
Shallow embedding of the kdp-builder Markdown line parser and document
assembler (src/kdpbuilder/markdown_parser.py, convert.py, bookmarks.py,
definitions.py).

Lines are modelled as `List Char`.  The embedding mirrors the Python
regular expressions by direct case analysis on the character list; it
assumes that a line contains no newline character, which is guaranteed
for every line fed to the parser by the converter (lines come from
Python file iteration followed by `rstrip("\n")`).  Theorems that
quantify over arbitrary lines therefore carry the hypothesis that the
newline character does not occur in the line whenever the regex
semantics would depend on it.
-/

/-- Python's `\s` character class for `str` patterns (`re` module):
ASCII whitespace, the C1 separators, and the Unicode space characters. -/
def isPySpace (c : Char) : Bool :=
  c.toNat = 32 || c.toNat = 9 || c.toNat = 10 || c.toNat = 13 || c.toNat = 11 ||
  c.toNat = 12 || (28 ≤ c.toNat && c.toNat ≤ 31) || c.toNat = 0x85 ||
  c.toNat = 0xa0 || c.toNat = 0x1680 || (0x2000 ≤ c.toNat && c.toNat ≤ 0x200a) ||
  c.toNat = 0x2028 || c.toNat = 0x2029 || c.toNat = 0x202f || c.toNat = 0x205f ||
  c.toNat = 0x3000

/-- A parsed segment: the `(text, style_name, link_target)` triples returned
by `MarkdownParser.parse_line` (markdown_parser.py line 93). -/
structure Segment where
  text : List Char
  style : List Char
  link : List Char
deriving DecidableEq, Repr

/-- The style name `"normal"`. -/
def normalStyle : List Char := "normal".data

/-- `(l.take (countLeading p l))` is the maximal all-`p` prefix of `l`. -/
def countLeading (p : Char → Bool) : List Char → Nat
  | [] => 0
  | c :: t => if p c then countLeading p t + 1 else 0

/-- Character at index `i` of the line, if any. -/
def charAt (t : List Char) (i : Nat) : Option Char := t.get? i

/-- The Python subscript `line[a:b]` (for `a ≤ b ≤ length`). -/
def pySlice (t : List Char) (a b : Nat) : List Char := (t.drop a).take (b - a)

/-! ## Standard inline emphasis/strong scanning

`MarkdownParser._INLINE_PATTERNS` (markdown_parser.py lines 19-24) holds the
four patterns `\*\*(?=\S)(.+?)(?<=\S)\*\*`, `__(?=\S)(.+?)(?<=\S)__`,
`\*(?=\S)(.+?)(?<=\S)\*`, `_(?=\S)(.+?)(?<=\S)_`.  Each is a literal
delimiter `d`, a lookahead requiring the first inner character to be
non-whitespace, a lazy non-empty inner group, a lookbehind requiring the
last inner character to be non-whitespace, and the closing delimiter. -/

/-- Attempt of one emphasis pattern with delimiter `d` anchored at index `i`:
returns `(inner text, match end)` of the lazy (shortest-inner) match. -/
def emphMatchAt (d : List Char) (t : List Char) (i : Nat) : Option (List Char × Nat) :=
  if d.isPrefixOf (t.drop i) then
    match charAt t (i + d.length) with
    | none => none
    | some c =>
      if isPySpace c then none
      else
        match (List.range' 1 t.length).find? (fun m =>
            (match charAt t (i + d.length + m - 1) with
             | some c2 => !isPySpace c2
             | none => false)
            && d.isPrefixOf (t.drop (i + d.length + m))) with
        | some m => some ((t.drop (i + d.length)).take m, i + d.length + m + d.length)
        | none => none
  else none

/-- `pattern.search(text, pos)` for one emphasis pattern: the match whose
start index is least (the regex engine scans start positions left to
right), as `(start, inner, end)`. -/
def emphSearch (d : List Char) (t : List Char) (pos : Nat) :
    Option (Nat × List Char × Nat) :=
  ((List.range' pos (t.length - pos)).filterMap (fun i =>
    (emphMatchAt d t i).map (fun r => (i, r.1, r.2)))).head?

/-- One candidate match of the inline-pattern competition. -/
structure Cand where
  style : List Char
  start : Nat
  inner : List Char
  stop : Nat
deriving DecidableEq, Repr

/-- `MarkdownParser._INLINE_PATTERNS`: style name and delimiter, in source
order (strong `**`, strong `__`, emphasis `*`, emphasis `_`). -/
def inlinePatterns : List (List Char × List Char) :=
  [("strong".data, "**".data), ("strong".data, "__".data),
   ("emphasis".data, "*".data), ("emphasis".data, "_".data)]

/-- The four candidate matches at scan position `pos` (patterns whose
search fails contribute nothing), in source order. -/
def inlineCandidates (t : List Char) (pos : Nat) : List Cand :=
  inlinePatterns.filterMap (fun p =>
    (emphSearch p.2 t pos).map (fun r => ⟨p.1, r.1, r.2.1, r.2.2⟩))

/-- The selection step of the loop in `_split_inline_markdown_styles`
(markdown_parser.py lines 44-53): keep the match with the smaller start,
and on equal starts the one with the greater end. -/
def bestStep (best : Option Cand) (c : Cand) : Option Cand :=
  match best with
  | none => some c
  | some b =>
    if c.start < b.start then some c
    else if c.start = b.start && b.stop < c.stop then some c
    else some b

/-- The best candidate at scan position `pos` (markdown_parser.py
lines 39-53). -/
def bestInline (t : List Char) (pos : Nat) : Option Cand :=
  (inlineCandidates t pos).foldl bestStep none

/-- The scanning loop of `_split_inline_markdown_styles`
(markdown_parser.py lines 38-65), fuelled; `fuel = t.length + 1` is
always sufficient since every match consumes at least three characters. -/
def splitInlineAux (t : List Char) : Nat → Nat → List Segment
  | _, 0 => []
  | pos, fuel + 1 =>
    if pos < t.length then
      match bestInline t pos with
      | none => [⟨t.drop pos, normalStyle, []⟩]
      | some c =>
        (if pos < c.start then [⟨pySlice t pos c.start, normalStyle, []⟩] else [])
          ++ ⟨c.inner, c.style, []⟩ :: splitInlineAux t c.stop fuel
    else []

/-- `MarkdownParser._split_inline_markdown_styles`
(markdown_parser.py lines 26-67). -/
def split_inline_markdown_styles (t : List Char) : List Segment :=
  if t.isEmpty then []
  else (splitInlineAux t 0 (t.length + 1)).filter (fun s => !s.text.isEmpty)

/-! ## Custom styled-text spans and internal links (first pass)

`STYLED_TEXT_PATTERN = \{([^}]+)\}\[([^\]]+)\]` and
`LINK_PATTERN = \[([^\]]+)\]\(#([^\)]+)\)` (markdown_parser.py
lines 10 and 16).  Because the inner groups exclude their own closing
bracket, a match anchored at `i` closes at the first following closing
bracket; both groups must be non-empty. -/

/-- First index `j` with `start ≤ j` and `t[j] = c`. -/
def firstCharFrom (t : List Char) (c : Char) (start : Nat) : Option Nat :=
  (List.range' start (t.length - start)).find? (fun j => charAt t j == some c)

/-- `STYLED_TEXT_PATTERN` anchored at index `i`: returns
`(match end, group 1, group 2)`. -/
def styledMatchAt (t : List Char) (i : Nat) : Option (Nat × List Char × List Char) :=
  if charAt t i == some '{' then
    match firstCharFrom t '}' (i + 1) with
    | none => none
    | some j =>
      if i + 1 < j && charAt t (j + 1) == some '[' then
        match firstCharFrom t ']' (j + 2) with
        | none => none
        | some k =>
          if j + 2 < k then some (k + 1, pySlice t (i + 1) j, pySlice t (j + 2) k)
          else none
      else none
  else none

/-- `LINK_PATTERN` anchored at index `i`: returns
`(match end, group 1, group 2)`. -/
def linkMatchAt (t : List Char) (i : Nat) : Option (Nat × List Char × List Char) :=
  if charAt t i == some '[' then
    match firstCharFrom t ']' (i + 1) with
    | none => none
    | some j =>
      if i + 1 < j && charAt t (j + 1) == some '(' && charAt t (j + 2) == some '#' then
        match firstCharFrom t ')' (j + 3) with
        | none => none
        | some k =>
          if j + 3 < k then some (k + 1, pySlice t (i + 1) j, pySlice t (j + 3) k)
          else none
      else none
  else none

/-- The leftmost match of `matchAt` whose start index is at least `pos`,
as `(start, end, group 1, group 2)`. -/
def searchFrom (matchAt : List Char → Nat → Option (Nat × List Char × List Char))
    (t : List Char) (pos : Nat) : Option (Nat × Nat × List Char × List Char) :=
  ((List.range' pos (t.length - pos)).filterMap (fun i =>
    (matchAt t i).map (fun r => (i, r)))).head?

/-- `pattern.finditer(line)`: all non-overlapping matches, scanning left to
right and resuming after each match (every match of either pattern is at
least six characters wide, so the scan position strictly increases and
`fuel = t.length + 1` is always sufficient). -/
def finditerAux (matchAt : List Char → Nat → Option (Nat × List Char × List Char))
    (t : List Char) : Nat → Nat → List (Nat × Nat × List Char × List Char)
  | _, 0 => []
  | pos, fuel + 1 =>
    match searchFrom matchAt t pos with
    | none => []
    | some m => m :: finditerAux matchAt t m.2.1 fuel

/-- All matches of `STYLED_TEXT_PATTERN` in the line
(markdown_parser.py line 105). -/
def finditerStyled (t : List Char) : List (Nat × Nat × List Char × List Char) :=
  finditerAux styledMatchAt t 0 (t.length + 1)

/-- All matches of `LINK_PATTERN` in the line (markdown_parser.py
line 107). -/
def finditerLink (t : List Char) : List (Nat × Nat × List Char × List Char) :=
  finditerAux linkMatchAt t 0 (t.length + 1)

/-- Tag distinguishing the two first-pass pattern families
(markdown_parser.py lines 106 and 108). -/
inductive MTag where
  | styled
  | hlink
deriving DecidableEq, Repr

/-- A collected first-pass match: tag, start, end, and the two groups. -/
structure PMatch where
  tag : MTag
  start : Nat
  stop : Nat
  g1 : List Char
  g2 : List Char
deriving DecidableEq, Repr

/-- Stable insertion by start offset: insert `m` before the first match
with a strictly greater start. -/
def insertByStart (m : PMatch) : List PMatch → List PMatch
  | [] => [m]
  | x :: xs => if x.start < m.start then x :: insertByStart m xs else m :: x :: xs

/-- Stable sort by start offset, as `matches.sort(key=lambda x: x[1])`
(markdown_parser.py line 109). -/
def sortByStart : List PMatch → List PMatch
  | [] => []
  | m :: ms => insertByStart m (sortByStart ms)

/-- The collected, tagged and sorted first-pass matches of a line
(markdown_parser.py lines 104-109; the styled matches are appended
before the link matches, and the sort is stable). -/
def collectMatches (line : List Char) : List PMatch :=
  sortByStart
    ((finditerStyled line).map (fun m => ⟨.styled, m.1, m.2.1, m.2.2.1, m.2.2.2⟩)
      ++ (finditerLink line).map (fun m => ⟨.hlink, m.1, m.2.1, m.2.2.1, m.2.2.2⟩))

/-- The segment a first-pass match emits: a styled match emits
`(group 1, group 2, "")`, a link match emits `(group 1, "normal", group 2)`
(markdown_parser.py lines 117-120). -/
def emitMatch (m : PMatch) : Segment :=
  match m.tag with
  | .styled => ⟨m.g1, m.g2, []⟩
  | .hlink => ⟨m.g1, normalStyle, m.g2⟩

/-- The first-pass walk over the sorted matches (markdown_parser.py
lines 111-127): literal text strictly between the cursor and the next
match start is emitted as a normal segment, then the match's own segment;
after the last match any trailing text is emitted. -/
def walkMatches (line : List Char) : List PMatch → Nat → List Segment
  | [], pos =>
    if pos < line.length then [⟨line.drop pos, normalStyle, []⟩] else []
  | m :: rest, pos =>
    (if pos < m.start then [⟨pySlice line pos m.start, normalStyle, []⟩] else [])
      ++ emitMatch m :: walkMatches line rest m.stop

/-- The first pass of `parse_line` over a content line (markdown_parser.py
lines 104-130), including the fallback that re-emits a non-empty line with
no matches as a single normal segment. -/
def firstPass (line : List Char) : List Segment :=
  let segs := walkMatches line (collectMatches line) 0
  if segs.isEmpty && !line.isEmpty then [⟨line, normalStyle, []⟩] else segs

/-- The second pass of `parse_line` (markdown_parser.py lines 132-140):
every segment whose style is `"normal"` and whose link target is empty is
re-scanned for standard emphasis; all other segments pass through. -/
def foldEmphasis (segs : List Segment) : List Segment :=
  segs.flatMap (fun s =>
    if s.style == normalStyle && s.link.isEmpty then
      split_inline_markdown_styles s.text
    else [s])

/-- A content line's final segmentation (the non-heading branch of
`parse_line`). -/
def parseContentLine (line : List Char) : List Segment :=
  foldEmphasis (firstPass line)

/-! ## Heading detection

`HEADER_PATTERN = ^(#{1,6})\s+(.+)$` (markdown_parser.py line 11), matched
with `.match` against a line that contains no newline.  The hash run must
be followed by a whitespace character, so the group takes the whole
leading hash run and fails if that run is longer than six.  The greedy
`\s+` then backtracks just enough to leave `(.+)` non-empty: if anything
follows the whitespace run the remainder is the text, otherwise the run
itself must be at least two characters long and its last character
becomes the text. -/

/-- The `\s+(.+)$` tail shared by the heading and list-item patterns:
given the characters after the prefix, returns the text group of the
match, if any. -/
def tailTextMatch (rest : List Char) : Option (List Char) :=
  let w := countLeading isPySpace rest
  if w = 0 then none
  else if w < rest.length then some (rest.drop w)
  else if 2 ≤ w then some (rest.drop (w - 1))
  else none

/-- `HEADER_PATTERN.match(line)` (markdown_parser.py lines 97-100):
returns `(level, text)`. -/
def headerMatch (line : List Char) : Option (Nat × List Char) :=
  let n := countLeading (fun c => c == '#') line
  if 1 ≤ n && n ≤ 6 then
    match tailTextMatch (line.drop n) with
    | some text => some (n, text)
    | none => none
  else none

/-- The style name `heading<level>` (markdown_parser.py line 101). -/
def headingStyleName (lvl : Nat) : List Char :=
  "heading".data ++ (toString lvl).data

/-- `MarkdownParser.parse_line` (markdown_parser.py lines 91-140). -/
def parse_line (line : List Char) : List Segment :=
  match headerMatch line with
  | some m => [⟨m.2, headingStyleName m.1, []⟩]
  | none => parseContentLine line

/-! ## Directive lines, list items and the converter dispatch
(convert.py, bookmarks.py) -/

/-- Python `str.strip()` on a line: remove leading and trailing
whitespace. -/
def pyStrip (t : List Char) : List Char :=
  ((t.dropWhile isPySpace).reverse.dropWhile isPySpace).reverse

/-- Python `str.lower()` on a line (all characters in play are ASCII). -/
def lowerLine (t : List Char) : List Char := t.map Char.toLower

/-- `MarkdownParser.is_pagebreak` (markdown_parser.py lines 12 and 70-71):
the stripped line matches `^<<<pagebreak>>>$` case-insensitively. -/
def is_pagebreak (line : List Char) : Bool :=
  lowerLine (pyStrip line) == "<<<pagebreak>>>".data

/-- `MarkdownParser.is_toc` (markdown_parser.py lines 14 and 80-82). -/
def is_toc (line : List Char) : Bool :=
  lowerLine (pyStrip line) == "<<<toc>>>".data

/-- `MarkdownParser.is_index` (markdown_parser.py lines 13 and 73-78):
the stripped line matches `^<<<index:(.+)>>>$` case-insensitively and the
term between the markers is returned verbatim. -/
def is_index (line : List Char) : Option (List Char) :=
  let s := pyStrip line
  if 13 ≤ s.length && lowerLine (s.take 9) == "<<<index:".data
      && s.drop (s.length - 3) == ">>>".data then
    some (pySlice s 9 (s.length - 3))
  else none

/-- `MarkdownParser.is_bookmark` (markdown_parser.py lines 15 and 84-89):
the stripped line matches `^<<<bookmark:(.+)>>>$` case-insensitively. -/
def is_bookmark (line : List Char) : Option (List Char) :=
  let s := pyStrip line
  if 16 ≤ s.length && lowerLine (s.take 12) == "<<<bookmark:".data
      && s.drop (s.length - 3) == ">>>".data then
    some (pySlice s 12 (s.length - 3))
  else none

/-- `_UNORDERED_LIST_ITEM = ^(?P<indent>[ \t]*)(?P<marker>[-*+])\s+(?P<text>.+)$`
(convert.py line 11): returns `(indent, text)`.  The indent group is the
maximal run of spaces and tabs (the bullet markers are neither, so the
greedy group never backtracks into a successful match). -/
def unorderedMatch (line : List Char) : Option (List Char × List Char) :=
  let i := countLeading (fun c => c == ' ' || c == '\t') line
  match line.drop i with
  | [] => none
  | m :: rest =>
    if m == '-' || m == '*' || m == '+' then
      match tailTextMatch rest with
      | some text => some (line.take i, text)
      | none => none
    else none

/-- `_ORDERED_LIST_ITEM = ^(?P<indent>[ \t]*)(?P<num>\d+)(?P<delim>[\.)])\s+(?P<text>.+)$`
(convert.py line 12): returns `(indent, text)`. -/
def orderedMatch (line : List Char) : Option (List Char × List Char) :=
  let i := countLeading (fun c => c == ' ' || c == '\t') line
  let rest := line.drop i
  let d := countLeading Char.isDigit rest
  if d = 0 then none
  else
    match rest.drop d with
    | [] => none
    | c :: rest2 =>
      if c == '.' || c == ')' then
        match tailTextMatch rest2 with
        | some text => some (line.take i, text)
        | none => none
      else none

/-- `_indent_to_list_level` (convert.py lines 15-18): a tab counts as four
spaces, and the level is the space count divided by four, plus one. -/
def indent_to_list_level (indent : List Char) : Nat :=
  (indent.map (fun c => if c == '\t' then 4 else 1)).sum / 4 + 1

/-- Modelled from the spec: `MarkdownParser.parse_inline` is called by the
converter (convert.py lines 58 and 63) and exercised by the tests, but its
definition is not part of the source tree.  Per the spec, a list item's
text "is run through the same inline-style scanner used for content
lines, never through full `parse_line`", and the tests expect
`parse_inline "# Not a heading"` to stay a single normal segment while
emphasis and strong markers are resolved. -/
def parse_inline (t : List Char) : List Segment :=
  split_inline_markdown_styles t

/-- `sanitize_bookmark_name` (bookmarks.py lines 6-18): drop every
character that is neither ASCII alphanumeric nor whitespace, turn spaces
into underscores, strip outer underscores, fall back to `"bookmark"` when
nothing is left, force an `h_` prefix when the first character is not a
letter, truncate to 40 characters, and lowercase. -/
def sanitize_bookmark_name (text : List Char) : List Char :=
  match ((((text.filter (fun c => c.isAlphanum || isPySpace c)).map
      (fun c => if c == ' ' then '_' else c)).dropWhile
      (fun c => c == '_')).reverse.dropWhile (fun c => c == '_')).reverse with
  | [] => "bookmark".data
  | c :: t =>
    ((if c.isAlpha then c :: t else 'h' :: '_' :: c :: t).take 40).map Char.toLower

/-- The back-end operation the converter dispatches for one input line
(convert.py lines 37-74). -/
inductive LineOp where
  | pageBreak
  | toc
  | indexEntry (term : List Char)
  | bookmark (name : List Char)
  | bulletItem (segs : List Segment) (level : Nat)
  | numberedItem (segs : List Segment) (level : Nat)
  | paragraph (segs : List Segment) (autoBookmark : Option (List Char))
deriving DecidableEq, Repr

/-- The per-line dispatch of `convert_markdown_to_docx`
(convert.py lines 37-74). -/
def dispatchLine (line : List Char) : LineOp :=
  if is_pagebreak line then .pageBreak
  else if is_toc line then .toc
  else
    match is_index line with
    | some term => .indexEntry term
    | none =>
      match is_bookmark line with
      | some name => .bookmark name
      | none =>
        if (pyStrip line).isEmpty then .paragraph [] none
        else
          match unorderedMatch line with
          | some m => .bulletItem (parse_inline m.2) (indent_to_list_level m.1)
          | none =>
            match orderedMatch line with
            | some m => .numberedItem (parse_inline m.2) (indent_to_list_level m.1)
            | none =>
              let segs := parse_line line
              let ab := match segs with
                | s :: _ =>
                  if "heading".data.isPrefixOf s.style then
                    some (sanitize_bookmark_name s.text)
                  else none
                | [] => none
              .paragraph segs ab

/-! ## The conversion pipeline (convert.py lines 21-77)

`convert_markdown_to_docx` loads the two configurations, constructs the
builder, dispatches one back-end operation per line, then calls
`apply_header_footer` and finally `save`.  Each stage can raise; an
exception aborts the remaining stages.  `runSteps` executes the stages
under an arbitrary effect `step` (which may fail with any error) and
also records which stages were actually invoked. -/

/-- One stage of `convert_markdown_to_docx`, in program order. -/
inductive ConvStep where
  | loadStyles
  | loadLayout
  | mkBuilder
  | lineOp (op : LineOp)
  | applyHeaderFooter
  | save
deriving DecidableEq, Repr

/-- The straight-line stage list of `convert_markdown_to_docx` for a given
sequence of input lines (convert.py lines 29-77). -/
def convertSteps (lines : List (List Char)) : List ConvStep :=
  [.loadStyles, .loadLayout, .mkBuilder]
    ++ lines.map (fun l => .lineOp (dispatchLine l))
    ++ [.applyHeaderFooter, .save]

/-- Execute the stages in order under the effect `step`: a failing stage
aborts the run and propagates its error.  Returns the list of stages that
were invoked together with the final result. -/
def runSteps {σ ε : Type} (step : ConvStep → σ → Except ε σ) :
    List ConvStep → σ → List ConvStep × Except ε σ
  | [], s => ([], .ok s)
  | op :: rest, s =>
    match step op s with
    | .ok s2 =>
      let r := runSteps step rest s2
      (op :: r.1, r.2)
    | .error e => ([op], .error e)

/-! ## Layout definitions (definitions.py lines 36-72)

Dimensions are modelled as exact rationals; `MM_TO_INCHES = 1.0/25.4` and
`CM_TO_INCHES = 1.0/2.54`. -/

/-- `LayoutDefinition.MM_TO_INCHES` (definitions.py line 39). -/
def MM_TO_INCHES : ℚ := 1 / (127 / 5)

/-- `LayoutDefinition.CM_TO_INCHES` (definitions.py line 40). -/
def CM_TO_INCHES : ℚ := 1 / (127 / 50)

/-- The constructed `LayoutDefinition` record (header/footer fields are
omitted: no claim concerns them). -/
structure Layout where
  unit : List Char
  page_width : ℚ
  page_height : ℚ
  margin_top : ℚ
  margin_bottom : ℚ
  margin_left : ℚ
  margin_right : ℚ
deriving DecidableEq, Repr

/-- `LayoutDefinition._convert_to_inches` (definitions.py lines 65-72):
negative values raise, `mm` and `cm` scale by the fixed ratios, `inches`
passes through. -/
def convert_to_inches (unit : List Char) (v : ℚ) : Except String ℚ :=
  if v < 0 then .error "Dimension values must be positive"
  else if unit = "mm".data then .ok (v * MM_TO_INCHES)
  else if unit = "cm".data then .ok (v * CM_TO_INCHES)
  else .ok v

/-- `LayoutDefinition.__init__` (definitions.py lines 42-63): lowercase and
validate the unit, then convert the six dimensions in source order; the
first failure aborts construction. -/
def layoutInit (unit : List Char) (pw ph mt mb ml mr : ℚ) : Except String Layout :=
  let u := lowerLine unit
  if u = "inches".data || u = "mm".data || u = "cm".data then
    match convert_to_inches u pw with
    | .error e => .error e
    | .ok pw2 =>
      match convert_to_inches u ph with
      | .error e => .error e
      | .ok ph2 =>
        match convert_to_inches u mt with
        | .error e => .error e
        | .ok mt2 =>
          match convert_to_inches u mb with
          | .error e => .error e
          | .ok mb2 =>
            match convert_to_inches u ml with
            | .error e => .error e
            | .ok ml2 =>
              match convert_to_inches u mr with
              | .error e => .error e
              | .ok mr2 => .ok ⟨u, pw2, ph2, mt2, mb2, ml2, mr2⟩
  else .error "Invalid unit"

/-- The character class the spec claims for sanitized bookmark names:
lowercase letters, digits, underscores. -/
def isBookmarkIdentChar (c : Char) : Bool :=
  ('a' ≤ c && c ≤ 'z') || c.isDigit || c == '_'

/-- "Not worse" ordering among inline candidates: `b` starts no later
than `m`, and on an equal start `b` ends no earlier. -/
def candRel (b m : Cand) : Prop :=
  b.start ≤ m.start ∧ (m.start = b.start → m.stop ≤ b.stop)

/-- The spec's heading condition: the line consists of one to six `#`
characters, then at least one whitespace character, then non-empty
remaining text. -/
def HeadingSyntax (line : List Char) : Prop :=
  ∃ k s t, 1 ≤ k ∧ k ≤ 6 ∧ s ≠ [] ∧ (∀ c ∈ s, isPySpace c = true) ∧ t ≠ []
    ∧ line = List.replicate k '#' ++ s ++ t

/-- Concatenation of the text fields of a segment list. -/
def concatTexts (segs : List Segment) : List Char :=
  (segs.map (fun s => s.text)).flatten

/-! ## Helper lemmas -/

theorem char_toNat_ofNatAux (n : Nat) (h : n.isValidChar) :
    (Char.ofNatAux n h).toNat = n := by
  simp [Char.ofNatAux, Char.toNat]; rfl

theorem char_toNat_ofNat_valid (n : Nat) (h : n.isValidChar) :
    (Char.ofNat n).toNat = n := by
  simp [Char.ofNat, h, char_toNat_ofNatAux]

theorem char_le_iff_toNat_le (a b : Char) : a ≤ b ↔ a.toNat ≤ b.toNat := by rfl

theorem toLower_of_upper (c : Char) (h : c.isUpper = true) :
    'a' ≤ c.toLower ∧ c.toLower ≤ 'z' := by
  simp only [Char.isUpper, Bool.and_eq_true, decide_eq_true_eq] at h
  have h1 : 65 ≤ c.toNat := h.1
  have h2 : c.toNat ≤ 90 := h.2
  have hv : (c.toNat + 32).isValidChar := Or.inl (by omega)
  unfold Char.toLower
  rw [if_pos ⟨h1, h2⟩]
  refine ⟨?_, ?_⟩
  · rw [char_le_iff_toNat_le, char_toNat_ofNat_valid _ hv]
    show 97 ≤ c.toNat + 32
    omega
  · rw [char_le_iff_toNat_le, char_toNat_ofNat_valid _ hv]
    show c.toNat + 32 ≤ 122
    omega

theorem toLower_of_not_upper (c : Char) (h : c.isUpper = false) : c.toLower = c := by
  simp only [Char.isUpper, Bool.and_eq_false_iff, decide_eq_false_iff_not] at h
  unfold Char.toLower
  rw [if_neg]
  rintro ⟨a, b⟩
  rcases h with h | h
  · exact h a
  · exact h b

theorem isLower_not_upper (c : Char) (h : c.isLower = true) : c.isUpper = false := by
  simp only [Char.isLower, Bool.and_eq_true, decide_eq_true_eq] at h
  have h1 : 97 ≤ c.toNat := h.1
  simp only [Char.isUpper, Bool.and_eq_false_iff, decide_eq_false_iff_not]
  right
  show ¬ c.toNat ≤ 90
  omega

theorem isLower_range (c : Char) (h : c.isLower = true) : 'a' ≤ c ∧ c ≤ 'z' := by
  simp only [Char.isLower, Bool.and_eq_true, decide_eq_true_eq] at h
  exact ⟨h.1, h.2⟩

theorem isDigit_not_upper (c : Char) (h : c.isDigit = true) : c.isUpper = false := by
  simp only [Char.isDigit, Bool.and_eq_true, decide_eq_true_eq] at h
  have h1 : c.toNat ≤ 57 := h.2
  simp only [Char.isUpper, Bool.and_eq_false_iff, decide_eq_false_iff_not]
  left
  show ¬ 65 ≤ c.toNat
  omega

theorem isPySpace_toNat (c : Char) (h : isPySpace c = true) :
    c.toNat = 32 ∨ c.toNat = 9 ∨ c.toNat = 10 ∨ c.toNat = 13 ∨ c.toNat = 11 ∨
    c.toNat = 12 ∨ (28 ≤ c.toNat ∧ c.toNat ≤ 31) ∨ c.toNat = 0x85 ∨
    c.toNat = 0xa0 ∨ c.toNat = 0x1680 ∨ (0x2000 ≤ c.toNat ∧ c.toNat ≤ 0x200a) ∨
    c.toNat = 0x2028 ∨ c.toNat = 0x2029 ∨ c.toNat = 0x202f ∨ c.toNat = 0x205f ∨
    c.toNat = 0x3000 := by
  simp only [isPySpace, Bool.or_eq_true, decide_eq_true_eq, Bool.and_eq_true] at h
  omega

theorem isPySpace_not_upper (c : Char) (h : isPySpace c = true) : c.isUpper = false := by
  have := isPySpace_toNat c h
  simp only [Char.isUpper, Bool.and_eq_false_iff, decide_eq_false_iff_not]
  by_cases h65 : 65 ≤ c.toNat
  · right
    show ¬ c.toNat ≤ 90
    omega
  · left
    exact h65

theorem dropWhile_eq_cons_head {p : Char → Bool} :
    ∀ (l : List Char) (c : Char) (t : List Char),
      l.dropWhile p = c :: t → p c = false := by
  intro l
  induction l with
  | nil => intro c t h; simp at h
  | cons x xs ih =>
    intro c t h
    by_cases hx : p x
    · rw [List.dropWhile_cons_of_pos hx] at h
      exact ih c t h
    · rw [List.dropWhile_cons_of_neg hx] at h
      cases h
      exact Bool.of_not_eq_true hx

theorem getLast?_dropWhile {p : Char → Bool} :
    ∀ (l : List Char), l.dropWhile p ≠ [] → (l.dropWhile p).getLast? = l.getLast? := by
  intro l
  induction l with
  | nil => intro h; simp at h
  | cons x xs ih =>
    intro h
    by_cases hx : p x
    · rw [List.dropWhile_cons_of_pos hx] at h ⊢
      rw [ih h]
      have hxs : xs ≠ [] := by
        intro he; rw [he] at h; simp at h
      cases xs with
      | nil => exact absurd rfl hxs
      | cons y ys => simp
    · rw [List.dropWhile_cons_of_neg hx]

theorem strip_mem {p : Char → Bool} (l : List Char) (x : Char)
    (h : x ∈ ((l.dropWhile p).reverse.dropWhile p).reverse) : x ∈ l := by
  rw [List.mem_reverse] at h
  have h2 := (List.dropWhile_sublist p).mem h
  rw [List.mem_reverse] at h2
  exact (List.dropWhile_sublist p).mem h2

theorem strip_head {p : Char → Bool} (l : List Char) (c : Char) (t : List Char)
    (h : ((l.dropWhile p).reverse.dropWhile p).reverse = c :: t) : p c = false := by
  have hb : (l.dropWhile p).reverse.dropWhile p = (c :: t).reverse := by
    have := congrArg List.reverse h
    simpa using this
  have hne : (l.dropWhile p).reverse.dropWhile p ≠ [] := by
    rw [hb]; simp
  have hlast : ((l.dropWhile p).reverse.dropWhile p).getLast? = some c := by
    rw [hb, List.reverse_cons]
    exact List.getLast?_concat _
  rw [getLast?_dropWhile _ hne, List.getLast?_reverse] at hlast
  obtain ⟨t2, ht2⟩ : ∃ t2, l.dropWhile p = c :: t2 := by
    cases hd : l.dropWhile p with
    | nil => rw [hd] at hlast; simp at hlast
    | cons y ys =>
      rw [hd] at hlast
      simp at hlast
      exact ⟨ys, by rw [hlast]⟩
  exact dropWhile_eq_cons_head l c t2 ht2

theorem head?_take (l : List Char) (n : Nat) (h : 0 < n) : (l.take n).head? = l.head? := by
  cases l with
  | nil => simp
  | cons x xs =>
    cases n with
    | zero => omega
    | succ m => simp

/-- The characters that can appear in `sanitize_bookmark_name`'s
intermediate list after filtering and space replacement. -/
theorem sanitize_s2_chars (text : List Char) (c : Char)
    (h : c ∈ (text.filter (fun c => c.isAlphanum || isPySpace c)).map
      (fun c => if c == ' ' then '_' else c)) :
    c = '_' ∨ c.isAlpha = true ∨ c.isDigit = true ∨
      (isPySpace c = true ∧ c ≠ ' ') := by
  rw [List.mem_map] at h
  obtain ⟨c0, hc0, hc⟩ := h
  rw [List.mem_filter] at hc0
  by_cases hsp : c0 == ' '
  · rw [if_pos hsp] at hc
    left; exact hc.symm
  · rw [if_neg hsp] at hc
    subst hc
    have := hc0.2
    simp only [Bool.or_eq_true, Char.isAlphanum] at this
    rcases this with (h1 | h1) | h1
    · right; left; exact h1
    · right; right; left; exact h1
    · right; right; right
      refine ⟨h1, ?_⟩
      intro he
      subst he
      simp at hsp

theorem bookmarkChar_goal (c : Char)
    (h : c = '_' ∨ c.isAlpha = true ∨ c.isDigit = true ∨
      (isPySpace c = true ∧ c ≠ ' ')) :
    isBookmarkIdentChar c.toLower = true ∨
      (isPySpace c.toLower = true ∧ c.toLower ≠ ' ') := by
  rcases h with h | h | h | h
  · subst h; left; decide
  · left
    simp only [Char.isAlpha, Bool.or_eq_true] at h
    rcases h with h | h
    · obtain ⟨h1, h2⟩ := toLower_of_upper c h
      simp only [isBookmarkIdentChar, Bool.or_eq_true, Bool.and_eq_true,
        decide_eq_true_eq]
      exact Or.inl (Or.inl ⟨h1, h2⟩)
    · rw [toLower_of_not_upper c (isLower_not_upper c h)]
      obtain ⟨h1, h2⟩ := isLower_range c h
      simp only [isBookmarkIdentChar, Bool.or_eq_true, Bool.and_eq_true,
        decide_eq_true_eq]
      exact Or.inl (Or.inl ⟨h1, h2⟩)
  · left
    rw [toLower_of_not_upper c (isDigit_not_upper c h)]
    simp only [isBookmarkIdentChar, Bool.or_eq_true]
    exact Or.inl (Or.inr h)
  · right
    rw [toLower_of_not_upper c (isPySpace_not_upper c h.1)]
    exact h

/-- C6 (amended): `sanitize_bookmark_name` is deterministic and total; for
every non-empty heading text it returns a non-empty identifier of at most
40 characters that starts with a lowercase letter (in particular, with a
letter or with `h_`), and every character of the result is a lowercase
letter, a digit, an underscore, or a whitespace character other than the
space (whitespace characters other than the space survive bookmarks.py's
sanitization, because only the space itself is replaced by an
underscore). -/
theorem c6_sanitize_bookmark_shape (text : List Char) (ht : text ≠ []) :
    sanitize_bookmark_name text ≠ []
    ∧ (sanitize_bookmark_name text).length ≤ 40
    ∧ (∃ c rest, sanitize_bookmark_name text = c :: rest ∧ 'a' ≤ c ∧ c ≤ 'z')
    ∧ ∀ c ∈ sanitize_bookmark_name text,
        isBookmarkIdentChar c = true ∨ (isPySpace c = true ∧ c ≠ ' ') := by
  cases hs : ((((text.filter (fun c => c.isAlphanum || isPySpace c)).map
      (fun c => if c == ' ' then '_' else c)).dropWhile
      (fun c => c == '_')).reverse.dropWhile (fun c => c == '_')).reverse with
  | nil =>
    have heq : sanitize_bookmark_name text = "bookmark".data := by
      unfold sanitize_bookmark_name
      rw [hs]
    rw [heq]
    refine ⟨by decide, by decide,
      ⟨'b', "ookmark".data, by decide, by decide, by decide⟩, ?_⟩
    intro c hc
    fin_cases hc <;> left <;> decide
  | cons c0 tl =>
    have heq : sanitize_bookmark_name text
        = ((if c0.isAlpha then c0 :: tl else 'h' :: '_' :: c0 :: tl).take 40).map
            Char.toLower := by
      unfold sanitize_bookmark_name
      rw [hs]
    have hmem : ∀ x ∈ c0 :: tl,
        x = '_' ∨ x.isAlpha = true ∨ x.isDigit = true ∨
          (isPySpace x = true ∧ x ≠ ' ') := by
      intro x hx
      exact sanitize_s2_chars text x (strip_mem _ x (hs ▸ hx))
    rw [heq]
    set s4 := if c0.isAlpha then c0 :: tl else 'h' :: '_' :: c0 :: tl with hs4
    have hs4chars : ∀ x ∈ s4,
        x = '_' ∨ x.isAlpha = true ∨ x.isDigit = true ∨
          (isPySpace x = true ∧ x ≠ ' ') := by
      intro x hx
      rw [hs4] at hx
      by_cases ha : c0.isAlpha
      · rw [if_pos ha] at hx
        exact hmem x hx
      · rw [if_neg ha] at hx
        simp only [List.mem_cons] at hx
        rcases hx with hx | hx | hx
        · right; left; rw [hx]; decide
        · left; rw [hx]
        · exact hmem x (List.mem_cons.mpr hx)
    have hhead : ∃ h4 t4, s4 = h4 :: t4 ∧ 'a' ≤ h4.toLower ∧ h4.toLower ≤ 'z' := by
      rw [hs4]
      by_cases ha : c0.isAlpha
      · rw [if_pos ha]
        refine ⟨c0, tl, rfl, ?_⟩
        simp only [Char.isAlpha, Bool.or_eq_true] at ha
        rcases ha with ha | ha
        · exact toLower_of_upper c0 ha
        · rw [toLower_of_not_upper c0 (isLower_not_upper c0 ha)]
          exact isLower_range c0 ha
      · rw [if_neg ha]
        exact ⟨'h', '_' :: c0 :: tl, rfl, by decide, by decide⟩
    obtain ⟨h4, t4, he4, hl4, hu4⟩ := hhead
    refine ⟨?_, ?_, ?_, ?_⟩
    · rw [he4]
      simp
    · rw [List.length_map, List.length_take]
      exact min_le_left _ _
    · refine ⟨h4.toLower, (t4.take 39).map Char.toLower, ?_, hl4, hu4⟩
      rw [he4]
      rfl
    · intro c hc
      rw [List.mem_map] at hc
      obtain ⟨c2, hc2, hlow⟩ := hc
      have hc2m : c2 ∈ s4 := List.take_subset _ _ hc2
      subst hlow
      exact bookmarkChar_goal c2 (hs4chars c2 hc2m)

/-- C6 counterexample: the heading text `"a\tb"` contains a tab; its
sanitized bookmark name keeps the tab, which is neither a lowercase
letter nor a digit nor an underscore — refuting the claimed character
class. -/
theorem c6_counterexample :
    sanitize_bookmark_name "a\tb".data = "a\tb".data
    ∧ '\t' ∈ sanitize_bookmark_name "a\tb".data
    ∧ isBookmarkIdentChar '\t' = false := by
  refine ⟨by decide, by decide, by decide⟩

/-- C6 witness: the amended theorem applied at the heading text
`"Hello, World!"`. -/
theorem c6_witness :
    "Hello, World!".data ≠ []
    ∧ (sanitize_bookmark_name "Hello, World!".data ≠ []
      ∧ (sanitize_bookmark_name "Hello, World!".data).length ≤ 40
      ∧ (∃ c rest, sanitize_bookmark_name "Hello, World!".data = c :: rest
          ∧ 'a' ≤ c ∧ c ≤ 'z')
      ∧ ∀ c ∈ sanitize_bookmark_name "Hello, World!".data,
          isBookmarkIdentChar c = true ∨ (isPySpace c = true ∧ c ≠ ' ')) :=
  ⟨by decide, c6_sanitize_bookmark_shape "Hello, World!".data (by decide)⟩

theorem convert_to_inches_ok_nonneg (u : List Char) (v x : ℚ)
    (h : convert_to_inches u v = .ok x) : 0 ≤ v := by
  unfold convert_to_inches at h
  by_cases hv : v < 0
  · rw [if_pos hv] at h
    exact absurd h (by simp)
  · exact le_of_not_lt hv

theorem layoutInit_ok_nonneg (u : List Char) (pw ph mt mb ml mr : ℚ) (L : Layout)
    (h : layoutInit u pw ph mt mb ml mr = .ok L) :
    0 ≤ pw ∧ 0 ≤ ph ∧ 0 ≤ mt ∧ 0 ≤ mb ∧ 0 ≤ ml ∧ 0 ≤ mr := by
  simp only [layoutInit] at h
  split at h
  case isFalse => exact absurd h (by simp)
  split at h
  case h_1 => exact absurd h (by simp)
  rename_i pw2 hpw
  split at h
  case h_1 => exact absurd h (by simp)
  rename_i ph2 hph
  split at h
  case h_1 => exact absurd h (by simp)
  rename_i mt2 hmt
  split at h
  case h_1 => exact absurd h (by simp)
  rename_i mb2 hmb
  split at h
  case h_1 => exact absurd h (by simp)
  rename_i ml2 hml
  split at h
  case h_1 => exact absurd h (by simp)
  rename_i mr2 hmr
  exact ⟨convert_to_inches_ok_nonneg _ _ _ hpw, convert_to_inches_ok_nonneg _ _ _ hph,
    convert_to_inches_ok_nonneg _ _ _ hmt, convert_to_inches_ok_nonneg _ _ _ hmb,
    convert_to_inches_ok_nonneg _ _ _ hml, convert_to_inches_ok_nonneg _ _ _ hmr⟩

theorem convert_to_inches_mm (v : ℚ) (h : 0 ≤ v) :
    convert_to_inches "mm".data v = .ok (v * MM_TO_INCHES) := by
  unfold convert_to_inches
  rw [if_neg (not_lt.mpr h), if_pos rfl]

theorem convert_to_inches_cm (v : ℚ) (h : 0 ≤ v) :
    convert_to_inches "cm".data v = .ok (v * CM_TO_INCHES) := by
  unfold convert_to_inches
  rw [if_neg (not_lt.mpr h), if_neg (by decide), if_pos rfl]

theorem convert_to_inches_inches (v : ℚ) (h : 0 ≤ v) :
    convert_to_inches "inches".data v = .ok v := by
  unfold convert_to_inches
  rw [if_neg (not_lt.mpr h), if_neg (by decide), if_neg (by decide)]

/-- C8: `LayoutDefinition` normalizes every dimension to inches at
construction: under `mm` every value is multiplied by `1/25.4` (so a page
width of 210 becomes `1050/127 ≈ 8.268` inches), under `cm` by `1/2.54`,
and under `inches` it is unchanged; and a negative value for any
dimension or margin, under any unit, makes construction fail before a
layout value exists. -/
theorem c8_layout_unit_conversion :
    (∀ pw ph mt mb ml mr : ℚ, 0 ≤ pw → 0 ≤ ph → 0 ≤ mt → 0 ≤ mb → 0 ≤ ml → 0 ≤ mr →
      layoutInit "mm".data pw ph mt mb ml mr
        = .ok ⟨"mm".data, pw * MM_TO_INCHES, ph * MM_TO_INCHES, mt * MM_TO_INCHES,
            mb * MM_TO_INCHES, ml * MM_TO_INCHES, mr * MM_TO_INCHES⟩
      ∧ layoutInit "cm".data pw ph mt mb ml mr
        = .ok ⟨"cm".data, pw * CM_TO_INCHES, ph * CM_TO_INCHES, mt * CM_TO_INCHES,
            mb * CM_TO_INCHES, ml * CM_TO_INCHES, mr * CM_TO_INCHES⟩
      ∧ layoutInit "inches".data pw ph mt mb ml mr
        = .ok ⟨"inches".data, pw, ph, mt, mb, ml, mr⟩)
    ∧ MM_TO_INCHES = 5 / 127
    ∧ CM_TO_INCHES = 50 / 127
    ∧ (210 : ℚ) * MM_TO_INCHES = 1050 / 127
    ∧ (8267 / 1000 : ℚ) < 210 * MM_TO_INCHES
    ∧ (210 : ℚ) * MM_TO_INCHES < 8269 / 1000
    ∧ (∀ (u : List Char) (pw ph mt mb ml mr : ℚ),
        (pw < 0 ∨ ph < 0 ∨ mt < 0 ∨ mb < 0 ∨ ml < 0 ∨ mr < 0) →
        ∀ L, layoutInit u pw ph mt mb ml mr ≠ .ok L) := by
  refine ⟨?_, by norm_num [MM_TO_INCHES], by norm_num [CM_TO_INCHES],
    by norm_num [MM_TO_INCHES], by norm_num [MM_TO_INCHES],
    by norm_num [MM_TO_INCHES], ?_⟩
  · intro pw ph mt mb ml mr hpw hph hmt hmb hml hmr
    have hmm : lowerLine "mm".data = "mm".data := by decide
    have hcm : lowerLine "cm".data = "cm".data := by decide
    have hin : lowerLine "inches".data = "inches".data := by decide
    refine ⟨?_, ?_, ?_⟩
    · simp only [layoutInit, hmm]
      rw [if_pos (by decide)]
      simp only [convert_to_inches_mm pw hpw, convert_to_inches_mm ph hph,
        convert_to_inches_mm mt hmt, convert_to_inches_mm mb hmb,
        convert_to_inches_mm ml hml, convert_to_inches_mm mr hmr]
    · simp only [layoutInit, hcm]
      rw [if_pos (by decide)]
      simp only [convert_to_inches_cm pw hpw, convert_to_inches_cm ph hph,
        convert_to_inches_cm mt hmt, convert_to_inches_cm mb hmb,
        convert_to_inches_cm ml hml, convert_to_inches_cm mr hmr]
    · simp only [layoutInit, hin]
      rw [if_pos (by decide)]
      simp only [convert_to_inches_inches pw hpw, convert_to_inches_inches ph hph,
        convert_to_inches_inches mt hmt, convert_to_inches_inches mb hmb,
        convert_to_inches_inches ml hml, convert_to_inches_inches mr hmr]
  · intro u pw ph mt mb ml mr hneg L hok
    obtain ⟨h1, h2, h3, h4, h5, h6⟩ := layoutInit_ok_nonneg u pw ph mt mb ml mr L hok
    rcases hneg with h | h | h | h | h | h
    · exact absurd h1 (not_le.mpr h)
    · exact absurd h2 (not_le.mpr h)
    · exact absurd h3 (not_le.mpr h)
    · exact absurd h4 (not_le.mpr h)
    · exact absurd h5 (not_le.mpr h)
    · exact absurd h6 (not_le.mpr h)

/-- C8 witness: the theorem's first part applied at the spec's scenario
(`unit: mm`, `page_width: 210`, letter height, one-inch margins). -/
theorem c8_witness :
    (0 : ℚ) ≤ 210 ∧ layoutInit "mm".data 210 297 25 25 25 25
      = .ok ⟨"mm".data, 210 * MM_TO_INCHES, 297 * MM_TO_INCHES, 25 * MM_TO_INCHES,
          25 * MM_TO_INCHES, 25 * MM_TO_INCHES, 25 * MM_TO_INCHES⟩ :=
  ⟨by norm_num,
    (c8_layout_unit_conversion.1 210 297 25 25 25 25 (by norm_num) (by norm_num)
      (by norm_num) (by norm_num) (by norm_num) (by norm_num)).1⟩

/-- C2: for every non-blank, non-directive line, a line matching the
unordered (resp. ordered) list pattern dispatches a bullet
(resp. numbered) item operation whose nesting level is the
leading-whitespace width (tabs as four spaces) divided by four, plus one
(so always at least one), and whose segments come from `parse_inline`,
the inline-style scanner — never from full `parse_line`; the lines
`"1. first"`, `"    2. nested"`, `"3) third"` classify as ordered items
at nesting levels 1, 2, 1. -/
theorem c2_list_item_dispatch :
    (∀ (line ind txt : List Char),
      is_pagebreak line = false → is_toc line = false →
      is_index line = none → is_bookmark line = none →
      (pyStrip line).isEmpty = false →
      (unorderedMatch line = some (ind, txt) →
        dispatchLine line = .bulletItem (parse_inline txt) (indent_to_list_level ind))
      ∧ (unorderedMatch line = none → orderedMatch line = some (ind, txt) →
        dispatchLine line = .numberedItem (parse_inline txt) (indent_to_list_level ind))
      ∧ 1 ≤ indent_to_list_level ind
      ∧ indent_to_list_level ind
          = (ind.map (fun c => if c == '\t' then 4 else 1)).sum / 4 + 1)
    ∧ dispatchLine "1. first".data
        = .numberedItem [⟨"first".data, normalStyle, []⟩] 1
    ∧ dispatchLine "    2. nested".data
        = .numberedItem [⟨"nested".data, normalStyle, []⟩] 2
    ∧ dispatchLine "3) third".data
        = .numberedItem [⟨"third".data, normalStyle, []⟩] 1 := by
  refine ⟨?_, by decide, by decide, by decide⟩
  intro line ind txt h1 h2 h3 h4 h5
  refine ⟨?_, ?_, Nat.le_add_left 1 _, rfl⟩
  · intro hu
    simp [dispatchLine, h1, h2, h3, h4, h5, hu]
  · intro hu ho
    simp [dispatchLine, h1, h2, h3, h4, h5, hu, ho]

/-- C2 witness: the theorem's universally quantified part applied at the
line `"\t* tabbed"` (an unordered item with a tab indent). -/
theorem c2_witness :
    is_pagebreak "\t* tabbed".data = false
    ∧ is_toc "\t* tabbed".data = false
    ∧ is_index "\t* tabbed".data = none
    ∧ is_bookmark "\t* tabbed".data = none
    ∧ (pyStrip "\t* tabbed".data).isEmpty = false
    ∧ ((unorderedMatch "\t* tabbed".data = some ("\t".data, "tabbed".data) →
        dispatchLine "\t* tabbed".data
          = .bulletItem (parse_inline "tabbed".data) (indent_to_list_level "\t".data))
      ∧ (unorderedMatch "\t* tabbed".data = none →
        orderedMatch "\t* tabbed".data = some ("\t".data, "tabbed".data) →
        dispatchLine "\t* tabbed".data
          = .numberedItem (parse_inline "tabbed".data) (indent_to_list_level "\t".data))
      ∧ 1 ≤ indent_to_list_level "\t".data
      ∧ indent_to_list_level "\t".data
          = ("\t".data.map (fun c => if c == '\t' then 4 else 1)).sum / 4 + 1) :=
  ⟨by decide, by decide, by decide, by decide, by decide,
    c2_list_item_dispatch.1 "\t* tabbed".data "\t".data "tabbed".data
      (by decide) (by decide) (by decide) (by decide) (by decide)⟩

theorem runSteps_trace_isPrefix {σ ε : Type} (step : ConvStep → σ → Except ε σ) :
    ∀ (ops : List ConvStep) (s : σ), (runSteps step ops s).1 <+: ops := by
  intro ops
  induction ops with
  | nil => intro s; simp [runSteps]
  | cons op rest ih =>
    intro s
    unfold runSteps
    cases step op s with
    | ok s2 =>
      simp only
      obtain ⟨t, ht⟩ := ih s2
      exact ⟨t, by simp [ht]⟩
    | error e => simp

theorem runSteps_ok_trace {σ ε : Type} (step : ConvStep → σ → Except ε σ) :
    ∀ (ops : List ConvStep) (s s2 : σ), (runSteps step ops s).2 = .ok s2 →
      (runSteps step ops s).1 = ops := by
  intro ops
  induction ops with
  | nil => intro s s2 _; rfl
  | cons op rest ih =>
    intro s s2 h
    unfold runSteps at h ⊢
    cases hst : step op s with
    | ok s3 =>
      rw [hst] at h
      simp only at h ⊢
      rw [ih s3 s2 h]
    | error e =>
      rw [hst] at h
      exact absurd h (by simp)

theorem runSteps_error_of_trace_ne {σ ε : Type} (step : ConvStep → σ → Except ε σ) :
    ∀ (ops : List ConvStep) (s : σ), (runSteps step ops s).1 ≠ ops →
      ∃ e, (runSteps step ops s).2 = .error e := by
  intro ops s h
  cases hr : (runSteps step ops s).2 with
  | ok s2 => exact absurd (runSteps_ok_trace step ops s s2 hr) h
  | error e => exact ⟨e, rfl⟩

theorem save_not_mem_body (lines : List (List Char)) :
    ConvStep.save ∉ ([ConvStep.loadStyles, .loadLayout, .mkBuilder]
      ++ lines.map (fun l => .lineOp (dispatchLine l)) ++ [.applyHeaderFooter]) := by
  intro h
  rw [List.mem_append] at h
  rcases h with h | h
  · rw [List.mem_append] at h
    rcases h with h | h
    · simp at h
    · rw [List.mem_map] at h
      obtain ⟨a, _, ha⟩ := h
      exact ConvStep.noConfusion ha
  · simp at h

theorem prefix_with_last {α : Type} [DecidableEq α] (A pre : List α) (b : α)
    (hpre : pre <+: A ++ [b]) (hb : b ∈ pre) (hnb : b ∉ A) : pre = A ++ [b] := by
  obtain ⟨suf, hsuf⟩ := hpre
  cases suf with
  | nil => rw [← hsuf, List.append_nil]
  | cons x xs =>
    exfalso
    have hlen : pre.length ≤ A.length := by
      have := congrArg List.length hsuf
      simp at this
      omega
    have hpa : pre <+: A :=
      List.prefix_of_prefix_length_le ⟨x :: xs, hsuf⟩
        (List.prefix_append A [b]) hlen
    exact hnb (hpa.sublist.mem hb)

/-- C7: in `convert_markdown_to_docx`'s straight-line pipeline, `save` is
invoked at most once, and only as the last step of the full stage list —
after the two configuration loads, the builder construction, one
dispatched operation per input line, and `apply_header_footer`; a run
that completes invoked `save`, and a run in which `save` was never
invoked (any earlier stage raised) produces an error that propagates to
the caller, so no output file is written. -/
theorem c7_save_discipline {σ ε : Type} (step : ConvStep → σ → Except ε σ)
    (lines : List (List Char)) (s0 : σ) :
    (runSteps step (convertSteps lines) s0).1.count ConvStep.save ≤ 1
    ∧ (ConvStep.save ∈ (runSteps step (convertSteps lines) s0).1 →
        (runSteps step (convertSteps lines) s0).1 = convertSteps lines)
    ∧ ((∃ s, (runSteps step (convertSteps lines) s0).2 = .ok s) →
        ConvStep.save ∈ (runSteps step (convertSteps lines) s0).1)
    ∧ (ConvStep.save ∉ (runSteps step (convertSteps lines) s0).1 →
        ∃ e, (runSteps step (convertSteps lines) s0).2 = .error e)
    ∧ convertSteps lines
        = ([ConvStep.loadStyles, .loadLayout, .mkBuilder]
            ++ lines.map (fun l => .lineOp (dispatchLine l)) ++ [.applyHeaderFooter])
          ++ [.save]
    ∧ (convertSteps lines).count ConvStep.save = 1 := by
  have hshape : convertSteps lines
      = ([ConvStep.loadStyles, .loadLayout, .mkBuilder]
          ++ lines.map (fun l => .lineOp (dispatchLine l)) ++ [.applyHeaderFooter])
        ++ [.save] := by
    unfold convertSteps
    simp
  have hcount1 : (convertSteps lines).count ConvStep.save = 1 := by
    rw [hshape, List.count_append]
    have h0 : (([ConvStep.loadStyles, ConvStep.loadLayout, ConvStep.mkBuilder]
        ++ lines.map (fun l => ConvStep.lineOp (dispatchLine l))
        ++ [ConvStep.applyHeaderFooter])).count ConvStep.save = 0 :=
      List.count_eq_zero.mpr (save_not_mem_body lines)
    rw [h0]
    rfl
  have hpre := runSteps_trace_isPrefix step (convertSteps lines) s0
  refine ⟨?_, ?_, ?_, ?_, hshape, hcount1⟩
  · calc (runSteps step (convertSteps lines) s0).1.count ConvStep.save
        ≤ (convertSteps lines).count ConvStep.save :=
          hpre.sublist.count_le ConvStep.save
      _ = 1 := hcount1
  · intro hmem
    rw [hshape] at hpre hmem ⊢
    exact prefix_with_last _ _ _ hpre hmem (save_not_mem_body lines)
  · rintro ⟨s, hs⟩
    rw [runSteps_ok_trace step _ _ _ hs, hshape]
    simp
  · intro hmem
    refine runSteps_error_of_trace_ne step _ _ ?_
    intro he
    rw [he, hshape] at hmem
    simp at hmem

/-- C7 witness: the theorem applied to a one-line document under a step
function that always succeeds: `save` is reached. -/
theorem c7_witness :
    (∃ s, (runSteps (fun _ (s : Unit) => (.ok s : Except Unit Unit))
        (convertSteps ["hi".data]) ()).2 = .ok s)
    ∧ ConvStep.save ∈ (runSteps (fun _ (s : Unit) => (.ok s : Except Unit Unit))
        (convertSteps ["hi".data]) ()).1 :=
  ⟨⟨(), rfl⟩,
    (c7_save_discipline (fun _ (s : Unit) => (.ok s : Except Unit Unit))
      ["hi".data] ()).2.2.1 ⟨(), rfl⟩⟩

theorem candRel_refl (b : Cand) : candRel b b :=
  ⟨le_refl _, fun _ => le_refl _⟩

theorem candRel_trans (a b c : Cand) (h1 : candRel a b) (h2 : candRel b c) :
    candRel a c := by
  obtain ⟨h1s, h1e⟩ := h1
  obtain ⟨h2s, h2e⟩ := h2
  refine ⟨le_trans h1s h2s, ?_⟩
  intro he
  have hbs : b.start = a.start := by omega
  have hcs : c.start = b.start := by omega
  exact le_trans (h2e hcs) (h1e hbs)

theorem bestStep_cases (a c : Cand) :
    (bestStep (some a) c = some c ∧ candRel c a)
    ∨ (bestStep (some a) c = some a ∧ candRel a c) := by
  simp only [bestStep]
  by_cases h1 : c.start < a.start
  · rw [if_pos h1]
    left
    exact ⟨rfl, le_of_lt h1, fun he => by omega⟩
  · rw [if_neg h1]
    by_cases h2 : c.start = a.start ∧ a.stop < c.stop
    · rw [if_pos (by simp [h2.1, h2.2])]
      left
      exact ⟨rfl, le_of_eq h2.1, fun _ => le_of_lt h2.2⟩
    · rw [if_neg (by
        simp only [Bool.and_eq_true, decide_eq_true_eq]
        intro hc
        exact h2 hc)]
      right
      refine ⟨rfl, by omega, ?_⟩
      intro he
      by_cases h3 : c.start = a.start
      · by_cases h4 : a.stop < c.stop
        · exact absurd ⟨h3, h4⟩ h2
        · omega
      · omega

theorem foldl_bestStep_spec :
    ∀ (l : List Cand) (acc : Option Cand) (b : Cand),
      l.foldl bestStep acc = some b →
      (b ∈ l ∨ acc = some b)
      ∧ (∀ m ∈ l, candRel b m)
      ∧ (∀ a, acc = some a → candRel b a) := by
  intro l
  induction l with
  | nil =>
    intro acc b h
    simp only [List.foldl_nil] at h
    refine ⟨Or.inr h, by simp, ?_⟩
    intro a ha
    rw [h] at ha
    cases ha
    exact candRel_refl b
  | cons c l2 ih =>
    intro acc b h
    rw [List.foldl_cons] at h
    obtain ⟨hm, hall, hacc⟩ := ih (bestStep acc c) b h
    cases acc with
    | none =>
      have hbc : candRel b c := hacc c rfl
      refine ⟨?_, ?_, by simp⟩
      · rcases hm with hm | hm
        · exact Or.inl (List.mem_cons_of_mem _ hm)
        · cases hm
          exact Or.inl (List.mem_cons_self _ _)
      · intro m hmem
        rcases List.mem_cons.mp hmem with he | hmem2
        · rw [he]; exact hbc
        · exact hall m hmem2
    | some a =>
      rcases bestStep_cases a c with ⟨heq, hrel⟩ | ⟨heq, hrel⟩
      · have hbc : candRel b c := hacc c heq
        have hba : candRel b a := candRel_trans b c a hbc hrel
        refine ⟨?_, ?_, ?_⟩
        · rcases hm with hm | hm
          · exact Or.inl (List.mem_cons_of_mem _ hm)
          · rw [heq] at hm
            cases hm
            exact Or.inl (List.mem_cons_self _ _)
        · intro m hmem
          rcases List.mem_cons.mp hmem with he | hmem2
          · rw [he]; exact hbc
          · exact hall m hmem2
        · intro a0 ha0
          cases ha0
          exact hba
      · have hba : candRel b a := hacc a heq
        have hbc : candRel b c := candRel_trans b a c hba hrel
        refine ⟨?_, ?_, ?_⟩
        · rcases hm with hm | hm
          · exact Or.inl (List.mem_cons_of_mem _ hm)
          · rw [heq] at hm
            cases hm
            exact Or.inr rfl
        · intro m hmem
          rcases List.mem_cons.mp hmem with he | hmem2
          · rw [he]; exact hbc
          · exact hall m hmem2
        · intro a0 ha0
          cases ha0
          exact hba

/-- C4: among the four standard emphasis/strong pattern candidates, the
scanner always selects a candidate with the smallest start offset, and on
a tie at the same start offset one whose end offset is greatest;
consequently `"**a**"` yields exactly the one segment
`("a", "strong", "")` and never two emphasis segments. -/
theorem c4_leftmost_longest_selection :
    (∀ (t : List Char) (pos : Nat) (b : Cand),
      bestInline t pos = some b →
      b ∈ inlineCandidates t pos
      ∧ ∀ m ∈ inlineCandidates t pos,
          b.start ≤ m.start ∧ (m.start = b.start → m.stop ≤ b.stop))
    ∧ split_inline_markdown_styles "**a**".data
        = [⟨"a".data, "strong".data, []⟩] := by
  refine ⟨?_, by decide⟩
  intro t pos b h
  obtain ⟨hm, hall, _⟩ := foldl_bestStep_spec (inlineCandidates t pos) none b h
  refine ⟨?_, hall⟩
  rcases hm with hm | hm
  · exact hm
  · exact absurd hm (by simp)

/-- C4 witness: the selection theorem applied at the line `"**a**"`,
where the winning candidate is the strong match `(0, "a", 5)` even though
the emphasis pattern also matches at start offset 0 (with end offset 4). -/
theorem c4_witness :
    bestInline "**a**".data 0 = some ⟨"strong".data, 0, "a".data, 5⟩
    ∧ (⟨"strong".data, 0, "a".data, 5⟩ : Cand) ∈ inlineCandidates "**a**".data 0
    ∧ ∀ m ∈ inlineCandidates "**a**".data 0,
        (⟨"strong".data, 0, "a".data, 5⟩ : Cand).start ≤ m.start
        ∧ (m.start = (⟨"strong".data, 0, "a".data, 5⟩ : Cand).start →
            m.stop ≤ (⟨"strong".data, 0, "a".data, 5⟩ : Cand).stop) :=
  ⟨by decide,
    (c4_leftmost_longest_selection.1 "**a**".data 0 _ (by decide)).1,
    (c4_leftmost_longest_selection.1 "**a**".data 0 _ (by decide)).2⟩

theorem head?_of_filterMap_head? {α β : Type} (f : α → Option β) (l : List α) (b : β)
    (h : (l.filterMap f).head? = some b) : ∃ a ∈ l, f a = some b := by
  cases hl : l.filterMap f with
  | nil => rw [hl] at h; simp at h
  | cons x xs =>
    rw [hl] at h
    simp only [List.head?_cons, Option.some.injEq] at h
    subst h
    exact List.mem_filterMap.mp (hl ▸ List.mem_cons_self x xs)

/-- The inner group of a successful emphasis-pattern match is non-empty,
begins with a non-whitespace character, and ends with a non-whitespace
character (the `(?=\S)` lookahead and `(?<=\S)` lookbehind). -/
theorem charAt_getElem (t : List Char) (i : Nat) : charAt t i = t[i]? := by
  simp [charAt, List.get?_eq_getElem?]

theorem emphMatchAt_boundaries (d t : List Char) (i : Nat) (inner : List Char)
    (e : Nat) (hd : d ≠ []) (h : emphMatchAt d t i = some (inner, e)) :
    inner ≠ []
    ∧ (∃ c rest, inner = c :: rest ∧ isPySpace c = false)
    ∧ (∃ c, inner.getLast? = some c ∧ isPySpace c = false) := by
  unfold emphMatchAt at h
  split at h
  case isFalse => exact absurd h (by simp)
  case isTrue hpre =>
    cases hc : charAt t (i + d.length) with
    | none => rw [hc] at h; simp at h
    | some c =>
      rw [hc] at h
      simp only at h
      split at h
      case isTrue => exact absurd h (by simp)
      case isFalse hcs =>
        cases hf : (List.range' 1 t.length).find? (fun m =>
            (match charAt t (i + d.length + m - 1) with
             | some c2 => !isPySpace c2
             | none => false)
            && d.isPrefixOf (t.drop (i + d.length + m))) with
        | none => rw [hf] at h; simp at h
        | some m =>
          rw [hf] at h
          simp only [Option.some.injEq, Prod.mk.injEq] at h
          obtain ⟨hinner, _⟩ := h
          have hm1 : 1 ≤ m := by
            have := List.mem_of_find?_eq_some hf
            rw [List.mem_range'] at this
            omega
          have hp := List.find?_some hf
          simp only [Bool.and_eq_true] at hp
          obtain ⟨hp1, hp2⟩ := hp
          obtain ⟨c2, hc2, hc2s⟩ : ∃ c2, charAt t (i + d.length + m - 1) = some c2
              ∧ isPySpace c2 = false := by
            cases hg : charAt t (i + d.length + m - 1) with
            | none => rw [hg] at hp1; simp at hp1
            | some c2 =>
              rw [hg] at hp1
              simp only [Bool.not_eq_true'] at hp1
              exact ⟨c2, rfl, hp1⟩
          have hidx : i + d.length < t.length := by
            have hc9 : t[i + d.length]? = some c := by rw [← charAt_getElem]; exact hc
            exact (List.getElem?_eq_some.mp hc9).1
          have hclose : i + d.length + m < t.length := by
            have hdp : d <+: t.drop (i + d.length + m) :=
              List.isPrefixOf_iff_prefix.mp hp2
            have hne : t.drop (i + d.length + m) ≠ [] := hdp.ne_nil hd
            by_contra hge
            rw [not_lt] at hge
            exact hne (List.drop_eq_nil_of_le hge)
          have hmlen : m ≤ (t.drop (i + d.length)).length := by
            rw [List.length_drop]
            omega
          have hlen : inner.length = m := by
            rw [← hinner, List.length_take]
            omega
          refine ⟨?_, ?_, ?_⟩
          · intro he
            rw [he] at hlen
            simp at hlen
            omega
          · have hh : inner.head? = some c := by
              rw [← hinner, head?_take _ _ (by omega), List.head?_drop,
                ← charAt_getElem]
              exact hc
            cases inner with
            | nil => simp at hh
            | cons x xs =>
              simp only [List.head?_cons, Option.some.injEq] at hh
              subst hh
              exact ⟨x, xs, rfl, by simpa using hcs⟩
          · refine ⟨c2, ?_, hc2s⟩
            rw [List.getLast?_eq_getElem?, hlen, ← hinner]
            rw [List.getElem?_take]
            rw [if_pos (by omega)]
            rw [List.getElem?_drop]
            have harith : i + d.length + (m - 1) = i + d.length + m - 1 := by omega
            rw [harith, ← charAt_getElem]
            exact hc2

/-- C10: each of the four emphasis/strong patterns only matches when the
delimited inner text begins and ends with a non-whitespace character; an
emphasis candidate whose inner text starts or ends with whitespace never
matches, so the line `"* x *"` parses to the single literal segment
`("* x *", "normal", "")`. -/
theorem c10_emphasis_boundaries :
    (∀ (d t : List Char) (pos i : Nat) (inner : List Char) (e : Nat),
      d ≠ [] → emphSearch d t pos = some (i, inner, e) →
      inner ≠ []
      ∧ (∃ c rest, inner = c :: rest ∧ isPySpace c = false)
      ∧ (∃ c, inner.getLast? = some c ∧ isPySpace c = false))
    ∧ parse_line "* x *".data = [⟨"* x *".data, normalStyle, []⟩]
    ∧ split_inline_markdown_styles "* x *".data
        = [⟨"* x *".data, normalStyle, []⟩] := by
  refine ⟨?_, by decide, by decide⟩
  intro d t pos i inner e hd h
  unfold emphSearch at h
  obtain ⟨j, _, hj⟩ := head?_of_filterMap_head? _ _ _ h
  cases hm : emphMatchAt d t j with
  | none => rw [hm] at hj; simp at hj
  | some r =>
    rw [hm] at hj
    simp only [Option.map_some', Option.some.injEq, Prod.mk.injEq] at hj
    obtain ⟨hji, hr1, hr2⟩ := hj
    subst hji
    have hr : r = (inner, e) := by
      cases r
      simp only at hr1 hr2
      rw [hr1, hr2]
    rw [hr] at hm
    exact emphMatchAt_boundaries d t _ inner e hd hm

/-- C10 witness: the boundary theorem applied to the emphasis pattern
`*` on the line `"*ab*"`. -/
theorem c10_witness :
    ("*".data : List Char) ≠ []
    ∧ emphSearch "*".data "*ab*".data 0 = some (0, "ab".data, 4)
    ∧ ("ab".data ≠ []
      ∧ (∃ c rest, "ab".data = c :: rest ∧ isPySpace c = false)
      ∧ (∃ c, "ab".data.getLast? = some c ∧ isPySpace c = false)) :=
  ⟨by decide, by decide,
    c10_emphasis_boundaries.1 "*".data "*ab*".data 0 0 "ab".data 4
      (by decide) (by decide)⟩

theorem mem_insertByStart (m x : PMatch) :
    ∀ l : List PMatch, x ∈ insertByStart m l ↔ x = m ∨ x ∈ l := by
  intro l
  induction l with
  | nil => simp [insertByStart]
  | cons y ys ih =>
    unfold insertByStart
    by_cases hy : y.start < m.start
    · rw [if_pos hy]
      simp only [List.mem_cons, ih]
      tauto
    · rw [if_neg hy]
      simp only [List.mem_cons]

theorem mem_sortByStart (x : PMatch) :
    ∀ l : List PMatch, x ∈ sortByStart l ↔ x ∈ l := by
  intro l
  induction l with
  | nil => simp [sortByStart]
  | cons y ys ih =>
    unfold sortByStart
    rw [mem_insertByStart, ih]
    simp

theorem firstCharFrom_spec (t : List Char) (c : Char) (start j : Nat)
    (h : firstCharFrom t c start = some j) :
    start ≤ j ∧ j < t.length ∧ charAt t j = some c := by
  unfold firstCharFrom at h
  have hmem := List.mem_of_find?_eq_some h
  have hpred := List.find?_some h
  rw [List.mem_range'] at hmem
  obtain ⟨i, hi, hj⟩ := hmem
  refine ⟨by omega, by omega, ?_⟩
  exact eq_of_beq hpred

theorem pySlice_ne_nil (t : List Char) (a b : Nat) (hab : a < b) (hb : a < t.length) :
    pySlice t a b ≠ [] := by
  intro h
  have := congrArg List.length h
  rw [pySlice, List.length_take, List.length_drop] at this
  simp at this
  omega

theorem styledMatchAt_groups (t : List Char) (i e : Nat) (g1 g2 : List Char)
    (h : styledMatchAt t i = some (e, g1, g2)) : g1 ≠ [] ∧ g2 ≠ [] := by
  unfold styledMatchAt at h
  split at h
  case isFalse => exact absurd h (by simp)
  case isTrue hbrace =>
    cases hj : firstCharFrom t '}' (i + 1) with
    | none => rw [hj] at h; simp at h
    | some j =>
      rw [hj] at h
      simp only at h
      split at h
      case isFalse => exact absurd h (by simp)
      case isTrue hcond =>
        cases hk : firstCharFrom t ']' (j + 2) with
        | none => rw [hk] at h; simp at h
        | some k =>
          rw [hk] at h
          simp only at h
          split at h
          case isFalse => exact absurd h (by simp)
          case isTrue hjk =>
            simp only [Option.some.injEq, Prod.mk.injEq] at h
            obtain ⟨_, hg1, hg2⟩ := h
            obtain ⟨hj1, hj2, _⟩ := firstCharFrom_spec t '}' (i + 1) j hj
            obtain ⟨hk1, hk2, _⟩ := firstCharFrom_spec t ']' (j + 2) k hk
            simp only [Bool.and_eq_true, decide_eq_true_eq] at hcond
            constructor
            · rw [← hg1]
              exact pySlice_ne_nil t (i + 1) j hcond.1 (by omega)
            · rw [← hg2]
              exact pySlice_ne_nil t (j + 2) k hjk (by omega)

theorem linkMatchAt_groups (t : List Char) (i e : Nat) (g1 g2 : List Char)
    (h : linkMatchAt t i = some (e, g1, g2)) : g1 ≠ [] ∧ g2 ≠ [] := by
  unfold linkMatchAt at h
  split at h
  case isFalse => exact absurd h (by simp)
  case isTrue hbr =>
    cases hj : firstCharFrom t ']' (i + 1) with
    | none => rw [hj] at h; simp at h
    | some j =>
      rw [hj] at h
      simp only at h
      split at h
      case isFalse => exact absurd h (by simp)
      case isTrue hcond =>
        cases hk : firstCharFrom t ')' (j + 3) with
        | none => rw [hk] at h; simp at h
        | some k =>
          rw [hk] at h
          simp only at h
          split at h
          case isFalse => exact absurd h (by simp)
          case isTrue hjk =>
            simp only [Option.some.injEq, Prod.mk.injEq] at h
            obtain ⟨_, hg1, hg2⟩ := h
            obtain ⟨hj1, hj2, _⟩ := firstCharFrom_spec t ']' (i + 1) j hj
            obtain ⟨hk1, hk2, _⟩ := firstCharFrom_spec t ')' (j + 3) k hk
            simp only [Bool.and_eq_true, decide_eq_true_eq] at hcond
            constructor
            · rw [← hg1]
              exact pySlice_ne_nil t (i + 1) j hcond.1.1 (by omega)
            · rw [← hg2]
              exact pySlice_ne_nil t (j + 3) k hjk (by omega)

theorem searchFrom_spec (matchAt : List Char → Nat → Option (Nat × List Char × List Char))
    (t : List Char) (pos : Nat) (i stop : Nat) (g1 g2 : List Char)
    (h : searchFrom matchAt t pos = some (i, stop, g1, g2)) :
    matchAt t i = some (stop, g1, g2) ∧ pos ≤ i := by
  unfold searchFrom at h
  obtain ⟨j, hjmem, hj⟩ := head?_of_filterMap_head? _ _ _ h
  rw [List.mem_range'] at hjmem
  obtain ⟨o, _, hjo⟩ := hjmem
  cases hm : matchAt t j with
  | none => rw [hm] at hj; simp at hj
  | some r =>
    rw [hm] at hj
    simp only [Option.map_some', Option.some.injEq, Prod.mk.injEq] at hj
    obtain ⟨hji, hr⟩ := hj
    subst hji
    refine ⟨?_, by omega⟩
    rw [hm]
    cases r with
    | mk a bc =>
      simp only [Prod.mk.injEq] at hr
      rw [hr.1, hr.2]

theorem finditerAux_mem
    (matchAt : List Char → Nat → Option (Nat × List Char × List Char))
    (t : List Char) :
    ∀ (fuel pos : Nat) (x : Nat × Nat × List Char × List Char),
      x ∈ finditerAux matchAt t pos fuel →
      matchAt t x.1 = some (x.2.1, x.2.2.1, x.2.2.2) := by
  intro fuel
  induction fuel with
  | zero => intro pos x h; simp [finditerAux] at h
  | succ n ih =>
    intro pos x h
    unfold finditerAux at h
    cases hs : searchFrom matchAt t pos with
    | none => rw [hs] at h; simp at h
    | some m =>
      rw [hs] at h
      rcases List.mem_cons.mp h with he | hm
      · subst he
        exact (searchFrom_spec matchAt t pos x.1 x.2.1 x.2.2.1 x.2.2.2 (by
          rw [hs])).1
      · exact ih _ x hm

theorem collectMatches_mem (line : List Char) (m : PMatch)
    (h : m ∈ collectMatches line) :
    (m.tag = .styled ∧ styledMatchAt line m.start = some (m.stop, m.g1, m.g2))
    ∨ (m.tag = .hlink ∧ linkMatchAt line m.start = some (m.stop, m.g1, m.g2)) := by
  unfold collectMatches at h
  rw [mem_sortByStart, List.mem_append] at h
  rcases h with h | h
  · left
    rw [List.mem_map] at h
    obtain ⟨x, hx, he⟩ := h
    have := finditerAux_mem styledMatchAt line _ _ x hx
    rw [← he]
    exact ⟨rfl, this⟩
  · right
    rw [List.mem_map] at h
    obtain ⟨x, hx, he⟩ := h
    have := finditerAux_mem linkMatchAt line _ _ x hx
    rw [← he]
    exact ⟨rfl, this⟩

theorem walkMatches_mem (line : List Char) :
    ∀ (ms : List PMatch) (pos : Nat) (s : Segment),
      s ∈ walkMatches line ms pos →
      (s.style = normalStyle ∧ s.link = []) ∨ ∃ m ∈ ms, s = emitMatch m := by
  intro ms
  induction ms with
  | nil =>
    intro pos s h
    unfold walkMatches at h
    split at h
    · rcases List.mem_singleton.mp h with he
      rw [he]
      exact Or.inl ⟨rfl, rfl⟩
    · simp at h
  | cons m rest ih =>
    intro pos s h
    unfold walkMatches at h
    rw [List.mem_append] at h
    rcases h with h | h
    · split at h
      · rcases List.mem_singleton.mp h with he
        rw [he]
        exact Or.inl ⟨rfl, rfl⟩
      · simp at h
    · rcases List.mem_cons.mp h with he | hm
      · exact Or.inr ⟨m, List.mem_cons_self _ _, he⟩
      · rcases ih m.stop s hm with hn | ⟨m2, hm2, he2⟩
        · exact Or.inl hn
        · exact Or.inr ⟨m2, List.mem_cons_of_mem _ hm2, he2⟩

theorem firstPass_mem (line : List Char) (s : Segment) (h : s ∈ firstPass line) :
    (s.style = normalStyle ∧ s.link = [])
    ∨ ∃ m ∈ collectMatches line, s = emitMatch m := by
  simp only [firstPass] at h
  split at h
  · rcases List.mem_singleton.mp h with he
    rw [he]
    exact Or.inl ⟨rfl, rfl⟩
  · exact walkMatches_mem line (collectMatches line) 0 s h

theorem split_text_ne (t : List Char) (s : Segment)
    (h : s ∈ split_inline_markdown_styles t) : s.text ≠ [] := by
  unfold split_inline_markdown_styles at h
  split at h
  · simp at h
  · have := (List.mem_filter.mp h).2
    simp only [Bool.not_eq_true'] at this
    exact fun he => by rw [he] at this; simp at this

theorem foldEmphasis_mem (segs : List Segment) (s : Segment)
    (h : s ∈ foldEmphasis segs) :
    (∃ s0 ∈ segs, s ∈ split_inline_markdown_styles s0.text)
    ∨ (∃ s0 ∈ segs, s = s0
        ∧ ¬(s0.style = normalStyle ∧ s0.link = [])) := by
  unfold foldEmphasis at h
  rw [List.mem_flatMap] at h
  obtain ⟨s0, hs0, hin⟩ := h
  by_cases hc : s0.style == normalStyle && s0.link.isEmpty
  · rw [if_pos hc] at hin
    exact Or.inl ⟨s0, hs0, hin⟩
  · rw [if_neg hc] at hin
    rcases List.mem_singleton.mp hin with he
    refine Or.inr ⟨s0, hs0, he, ?_⟩
    intro ⟨h1, h2⟩
    apply hc
    simp only [Bool.and_eq_true, beq_iff_eq]
    exact ⟨h1, by rw [h2]; rfl⟩

theorem countLeading_le (p : Char → Bool) : ∀ l : List Char, countLeading p l ≤ l.length := by
  intro l
  induction l with
  | nil => simp [countLeading]
  | cons c t ih =>
    unfold countLeading
    by_cases hc : p c
    · rw [if_pos hc]
      simp only [List.length_cons]
      omega
    · rw [if_neg hc]
      simp

theorem tailTextMatch_ne (rest txt : List Char) (h : tailTextMatch rest = some txt) :
    txt ≠ [] := by
  simp only [tailTextMatch] at h
  split at h
  · exact absurd h (by simp)
  · rename_i hw0
    split at h
    · rename_i hwlen
      have h2 := Option.some.inj h
      intro he
      rw [he] at h2
      have h3 := congrArg List.length h2
      rw [List.length_drop] at h3
      simp at h3
      omega
    · split at h
      · rename_i hnl h2w
        have h2 := Option.some.inj h
        intro he
        rw [he] at h2
        have h3 := congrArg List.length h2
        rw [List.length_drop] at h3
        simp at h3
        have h4 := countLeading_le isPySpace rest
        omega
      · exact absurd h (by simp)

theorem headerMatch_text_ne (line : List Char) (lvl : Nat) (txt : List Char)
    (h : headerMatch line = some (lvl, txt)) : txt ≠ [] := by
  simp only [headerMatch] at h
  split at h
  · cases ht : tailTextMatch (line.drop (countLeading (fun c => c == '#') line)) with
    | none => rw [ht] at h; simp at h
    | some t2 =>
      rw [ht] at h
      simp only [Option.some.injEq, Prod.mk.injEq] at h
      rw [← h.2]
      exact tailTextMatch_ne _ _ ht
  · exact absurd h (by simp)

/-- C9: every triple emitted by `parse_line` — and every triple emitted
by the inline scanner — has a non-empty text field (zero-length segments
are filtered out), and the empty input line parses to the empty list. -/
theorem c9_segments_nonempty :
    (∀ (line : List Char) (s : Segment), s ∈ parse_line line → s.text ≠ [])
    ∧ (∀ (t : List Char) (s : Segment),
        s ∈ split_inline_markdown_styles t → s.text ≠ [])
    ∧ parse_line [] = [] := by
  refine ⟨?_, split_text_ne, by decide⟩
  intro line s h
  unfold parse_line at h
  cases hm : headerMatch line with
  | some m =>
    rw [hm] at h
    rcases List.mem_singleton.mp h with he
    rw [he]
    exact headerMatch_text_ne line m.1 m.2 (by rw [hm])
  | none =>
    rw [hm] at h
    rcases foldEmphasis_mem _ s h with ⟨s0, _, hsplit⟩ | ⟨s0, hs0, he, hns⟩
    · exact split_text_ne _ _ hsplit
    · rcases firstPass_mem line s0 hs0 with hn | ⟨m2, hm2, hem⟩
      · exact absurd hn hns
      · rw [he, hem]
        rcases collectMatches_mem line m2 hm2 with ⟨htag, hsm⟩ | ⟨htag, hsm⟩
        · unfold emitMatch
          rw [htag]
          exact (styledMatchAt_groups _ _ _ _ _ hsm).1
        · unfold emitMatch
          rw [htag]
          exact (linkMatchAt_groups _ _ _ _ _ hsm).1

/-- C9 witness: the invariant applied to the segment produced for the
line `"*a*"`. -/
theorem c9_witness :
    (⟨"a".data, "emphasis".data, []⟩ : Segment) ∈ parse_line "*a*".data
    ∧ ("a".data : List Char) ≠ [] :=
  ⟨by decide,
    c9_segments_nonempty.1 "*a*".data ⟨"a".data, "emphasis".data, []⟩ (by decide)⟩

/-- C3 (amended): the second-pass standard-emphasis fold applies only to
segments whose style name is `"normal"` and whose link target is empty;
any first-pass segment carrying a different style name, or a link target,
survives into `parse_line`'s output unchanged — in particular
`"{*x*}[strong]"` yields the single segment `("*x*", "strong", "")` with
the asterisks literal.  (A custom span whose style name is itself
`"normal"`, such as `{*x*}[normal]`, produces a `"normal"` segment and
is therefore re-scanned — see the counterexample.) -/
theorem c3_no_refold_of_styled :
    (∀ (line : List Char) (s : Segment), headerMatch line = none →
      s ∈ firstPass line → ¬(s.style = normalStyle ∧ s.link = []) →
      s ∈ parse_line line)
    ∧ parse_line "{*x*}[strong]".data = [⟨"*x*".data, "strong".data, []⟩] := by
  refine ⟨?_, by decide⟩
  intro line s hh hs hns
  unfold parse_line
  rw [hh]
  unfold parseContentLine foldEmphasis
  rw [List.mem_flatMap]
  refine ⟨s, hs, ?_⟩
  rw [if_neg ?_]
  · exact List.mem_singleton_self s
  · intro hc
    simp only [Bool.and_eq_true, beq_iff_eq] at hc
    apply hns
    refine ⟨hc.1, ?_⟩
    have := hc.2
    rwa [List.isEmpty_iff] at this

/-- C3 counterexample: the custom span `{*x*}[normal]` produces the
first-pass segment `("*x*", "normal", "")`, which IS re-scanned by the
emphasis fold: `parse_line` turns it into an `emphasis` segment, so a
segment produced by a custom `{text}[style_name]` span is not always
exempt from the fold. -/
theorem c3_counterexample :
    (⟨"*x*".data, "normal".data, []⟩ : Segment) ∈ firstPass "{*x*}[normal]".data
    ∧ parse_line "{*x*}[normal]".data = [⟨"x".data, "emphasis".data, []⟩]
    ∧ (⟨"*x*".data, "normal".data, []⟩ : Segment) ∉ parse_line "{*x*}[normal]".data := by
  refine ⟨by decide, by decide, by decide⟩

/-- C3 witness: the amended theorem applied to the link segment of the
line `"[label](#anchor)"`, which survives the fold unchanged. -/
theorem c3_witness :
    headerMatch "[label](#anchor)".data = none
    ∧ (⟨"label".data, normalStyle, "anchor".data⟩ : Segment)
        ∈ firstPass "[label](#anchor)".data
    ∧ ¬((⟨"label".data, normalStyle, "anchor".data⟩ : Segment).style = normalStyle
        ∧ (⟨"label".data, normalStyle, "anchor".data⟩ : Segment).link = [])
    ∧ (⟨"label".data, normalStyle, "anchor".data⟩ : Segment)
        ∈ parse_line "[label](#anchor)".data :=
  ⟨by decide, by decide, by decide,
    c3_no_refold_of_styled.1 "[label](#anchor)".data
      ⟨"label".data, normalStyle, "anchor".data⟩ (by decide) (by decide) (by decide)⟩

theorem countLeading_nil (p : Char → Bool) : countLeading p [] = 0 := rfl

theorem countLeading_cons (p : Char → Bool) (c : Char) (t : List Char) :
    countLeading p (c :: t) = if p c then countLeading p t + 1 else 0 := rfl

theorem countLeading_replicate_append (p : Char → Bool) (c : Char) (hc : p c = true) :
    ∀ (k : Nat) (r : List Char),
      countLeading p (List.replicate k c ++ r) = k + countLeading p r := by
  intro k
  induction k with
  | zero => intro r; simp
  | succ n ih =>
    intro r
    rw [List.replicate_succ, List.cons_append, countLeading_cons, if_pos hc, ih r]
    omega

theorem countLeading_cons_false (p : Char → Bool) (c : Char) (hc : p c = false)
    (r : List Char) : countLeading p (c :: r) = 0 := by
  rw [countLeading_cons, if_neg (by simp [hc])]

theorem countLeading_ge_prefix (p : Char → Bool) :
    ∀ (s t : List Char), (∀ c ∈ s, p c = true) →
      s.length ≤ countLeading p (s ++ t) := by
  intro s
  induction s with
  | nil => intro t _; simp
  | cons c s2 ih =>
    intro t hall
    rw [List.cons_append, countLeading_cons,
      if_pos (hall c (List.mem_cons_self _ _))]
    have := ih t (fun x hx => hall x (List.mem_cons_of_mem _ hx))
    simp only [List.length_cons]
    omega

theorem take_countLeading_all (p : Char → Bool) :
    ∀ (l : List Char) (x : Char), x ∈ l.take (countLeading p l) → p x = true := by
  intro l
  induction l with
  | nil => intro x hx; simp [countLeading] at hx
  | cons c t ih =>
    intro x hx
    rw [countLeading_cons] at hx
    by_cases hc : p c
    · rw [if_pos hc] at hx
      rw [List.take_succ_cons] at hx
      rcases List.mem_cons.mp hx with he | hx2
      · rw [he]; exact hc
      · exact ih x hx2
    · rw [if_neg hc] at hx
      simp at hx

theorem hash_not_space (c : Char) (hc : isPySpace c = true) : (c == '#') = false := by
  have := isPySpace_toNat c hc
  by_contra hb
  rw [Bool.not_eq_false, beq_iff_eq] at hb
  subst hb
  revert this
  decide

theorem take_countLeading_hash (l : List Char) :
    l.take (countLeading (fun c => c == '#') l)
      = List.replicate (countLeading (fun c => c == '#') l) '#' := by
  apply List.eq_replicate_iff.mpr
  constructor
  · rw [List.length_take]
    have := countLeading_le (fun c => c == '#') l
    omega
  · intro x hx
    have := take_countLeading_all (fun c => c == '#') l x hx
    exact eq_of_beq this

theorem tailTextMatch_of_decomp (r s t : List Char) (hs : s ≠ [])
    (hall : ∀ c ∈ s, isPySpace c = true) (ht : t ≠ []) (hr : r = s ++ t) :
    ∃ s2 t2, tailTextMatch r = some t2 ∧ r = s2 ++ t2 ∧ s2 ≠ []
      ∧ (∀ c ∈ s2, isPySpace c = true) ∧ t2 ≠ [] := by
  have hslen : 1 ≤ s.length := List.length_pos.mpr hs
  have htlen : 1 ≤ t.length := List.length_pos.mpr ht
  have hw1 : 1 ≤ countLeading isPySpace r := by
    have h1 := countLeading_ge_prefix isPySpace s t hall
    rw [← hr] at h1
    omega
  have hwle := countLeading_le isPySpace r
  have hrlen : 2 ≤ r.length := by
    have : r.length = s.length + t.length := by
      rw [hr, List.length_append]
    omega
  have hne0 : ¬(countLeading isPySpace r = 0) := by omega
  simp only [tailTextMatch]
  by_cases hlt : countLeading isPySpace r < r.length
  · rw [if_neg hne0, if_pos hlt]
    refine ⟨r.take (countLeading isPySpace r), r.drop (countLeading isPySpace r),
      rfl, (List.take_append_drop _ r).symm, ?_, take_countLeading_all isPySpace r, ?_⟩
    · intro he
      have h9 := congrArg List.length he
      rw [List.length_take] at h9
      simp only [List.length_nil] at h9
      omega
    · intro he
      have h9 := congrArg List.length he
      rw [List.length_drop] at h9
      simp only [List.length_nil] at h9
      omega
  · have h2w : 2 ≤ countLeading isPySpace r := by omega
    rw [if_neg hne0, if_neg hlt, if_pos h2w]
    refine ⟨r.take (countLeading isPySpace r - 1),
      r.drop (countLeading isPySpace r - 1),
      rfl, (List.take_append_drop _ r).symm, ?_, ?_, ?_⟩
    · intro he
      have h9 := congrArg List.length he
      rw [List.length_take] at h9
      simp only [List.length_nil] at h9
      omega
    · intro x hx
      refine take_countLeading_all isPySpace r x ?_
      have hsub : r.take (countLeading isPySpace r - 1)
          = (r.take (countLeading isPySpace r)).take (countLeading isPySpace r - 1) := by
        rw [List.take_take, min_eq_left (by omega)]
      rw [hsub] at hx
      exact List.take_subset _ _ hx
    · intro he
      have h9 := congrArg List.length he
      rw [List.length_drop] at h9
      simp only [List.length_nil] at h9
      omega

theorem tailTextMatch_decomp (r t2 : List Char) (h : tailTextMatch r = some t2) :
    ∃ s2, r = s2 ++ t2 ∧ s2 ≠ [] ∧ (∀ c ∈ s2, isPySpace c = true) := by
  have hwle := countLeading_le isPySpace r
  simp only [tailTextMatch] at h
  split at h
  · exact absurd h (by simp)
  · rename_i hw0
    split at h
    · rename_i hlt
      have h2 := Option.some.inj h
      refine ⟨r.take (countLeading isPySpace r), ?_, ?_,
        take_countLeading_all isPySpace r⟩
      · rw [← h2]
        exact (List.take_append_drop _ r).symm
      · intro he
        have h9 := congrArg List.length he
        rw [List.length_take] at h9
        simp only [List.length_nil] at h9
        omega
    · split at h
      · rename_i hnlt h2w
        have h2 := Option.some.inj h
        refine ⟨r.take (countLeading isPySpace r - 1), ?_, ?_, ?_⟩
        · rw [← h2]
          exact (List.take_append_drop _ r).symm
        · intro he
          have h9 := congrArg List.length he
          rw [List.length_take] at h9
          simp only [List.length_nil] at h9
          omega
        · intro x hx
          refine take_countLeading_all isPySpace r x ?_
          have hsub : r.take (countLeading isPySpace r - 1)
              = (r.take (countLeading isPySpace r)).take
                  (countLeading isPySpace r - 1) := by
            rw [List.take_take, min_eq_left (by omega)]
          rw [hsub] at hx
          exact List.take_subset _ _ hx
      · exact absurd h (by simp)

theorem headerMatch_of_syntax (line : List Char) (h : HeadingSyntax line) :
    ∃ s2 t2, headerMatch line
        = some (countLeading (fun c => c == '#') line, t2)
      ∧ line = List.replicate (countLeading (fun c => c == '#') line) '#' ++ s2 ++ t2
      ∧ s2 ≠ [] ∧ (∀ c ∈ s2, isPySpace c = true) ∧ t2 ≠ []
      ∧ 1 ≤ countLeading (fun c => c == '#') line
      ∧ countLeading (fun c => c == '#') line ≤ 6 := by
  obtain ⟨k, s, t, hk1, hk6, hs, hall, ht, hline⟩ := h
  have hn : countLeading (fun c => c == '#') line = k := by
    rw [hline, List.append_assoc,
      countLeading_replicate_append (fun c => c == '#') '#' (by decide) k]
    cases s with
    | nil => exact absurd rfl hs
    | cons c0 s2 =>
      rw [List.cons_append,
        countLeading_cons_false _ c0
          (hash_not_space c0 (hall c0 (List.mem_cons_self _ _)))]
      omega
  have hdrop : line.drop (countLeading (fun c => c == '#') line) = s ++ t := by
    rw [hn, hline, List.append_assoc]
    exact List.drop_left' (List.length_replicate k '#')
  obtain ⟨s2, t2, htail, hdecomp, hs2, hall2, ht2⟩ :=
    tailTextMatch_of_decomp (s ++ t) s t hs hall ht rfl
  refine ⟨s2, t2, ?_, ?_, hs2, hall2, ht2, by omega, by omega⟩
  · simp only [headerMatch]
    rw [if_pos (by simp only [Bool.and_eq_true, decide_eq_true_eq]; omega),
      hdrop, htail]
  · rw [hn, hline, List.append_assoc, List.append_assoc, ← hdecomp]

theorem syntax_of_headerMatch (line : List Char) (lvl : Nat) (txt : List Char)
    (h : headerMatch line = some (lvl, txt)) :
    HeadingSyntax line ∧ lvl = countLeading (fun c => c == '#') line := by
  simp only [headerMatch] at h
  split at h
  case isFalse => exact absurd h (by simp)
  case isTrue hguard =>
    simp only [Bool.and_eq_true, decide_eq_true_eq] at hguard
    cases ht2 : tailTextMatch (line.drop (countLeading (fun c => c == '#') line)) with
    | none => rw [ht2] at h; exact absurd h (by simp)
    | some t2 =>
      rw [ht2] at h
      simp only [Option.some.injEq, Prod.mk.injEq] at h
      obtain ⟨hl, htx⟩ := h
      obtain ⟨s2, hdec, hs2, hall2⟩ := tailTextMatch_decomp _ _ ht2
      refine ⟨⟨countLeading (fun c => c == '#') line, s2, t2,
        hguard.1, hguard.2, hs2, hall2, tailTextMatch_ne _ _ ht2, ?_⟩, hl.symm⟩
      rw [← take_countLeading_hash line, List.append_assoc, ← hdec]
      exact (List.take_append_drop _ line).symm

/-- C5: a line is classified as a heading exactly when it consists of one
to six `#` characters, then at least one whitespace character, then
non-empty remaining text; in that case `parse_line` returns the single
segment `(remainder, heading<level>, "")` with the level equal to the
count of leading `#` characters and no inline scanning applied, and any
other line (including one with zero or more than six leading `#`
characters) falls through to content parsing. -/
theorem c5_heading_iff (line : List Char) (hnl : '\n' ∉ line) :
    (HeadingSyntax line ↔
      ∃ s t, s ≠ [] ∧ (∀ c ∈ s, isPySpace c = true) ∧ t ≠ []
        ∧ 1 ≤ countLeading (fun c => c == '#') line
        ∧ countLeading (fun c => c == '#') line ≤ 6
        ∧ line = List.replicate (countLeading (fun c => c == '#') line) '#' ++ s ++ t
        ∧ parse_line line
            = [⟨t, headingStyleName (countLeading (fun c => c == '#') line), []⟩])
    ∧ (¬ HeadingSyntax line → parse_line line = parseContentLine line) := by
  constructor
  · constructor
    · intro h
      obtain ⟨s2, t2, hm, hdec, hs2, hall2, ht2, h1, h6⟩ :=
        headerMatch_of_syntax line h
      refine ⟨s2, t2, hs2, hall2, ht2, h1, h6, hdec, ?_⟩
      unfold parse_line
      rw [hm]
    · rintro ⟨s, t, hs, hall, ht, h1, h6, hdec, _⟩
      exact ⟨countLeading (fun c => c == '#') line, s, t, h1, h6, hs, hall, ht, hdec⟩
  · intro hns
    cases hm : headerMatch line with
    | some m =>
      exact absurd (syntax_of_headerMatch line m.1 m.2 (by rw [hm])).1 hns
    | none =>
      unfold parse_line
      rw [hm]

/-- C5 witness: the classification theorem applied at the line
`"## Hi"`, which satisfies the heading syntax with level 2. -/
theorem c5_witness :
    '\n' ∉ "## Hi".data
    ∧ HeadingSyntax "## Hi".data
    ∧ parse_line "## Hi".data = [⟨"Hi".data, "heading2".data, []⟩]
    ∧ ((HeadingSyntax "## Hi".data ↔
        ∃ s t, s ≠ [] ∧ (∀ c ∈ s, isPySpace c = true) ∧ t ≠ []
          ∧ 1 ≤ countLeading (fun c => c == '#') "## Hi".data
          ∧ countLeading (fun c => c == '#') "## Hi".data ≤ 6
          ∧ "## Hi".data = List.replicate
              (countLeading (fun c => c == '#') "## Hi".data) '#' ++ s ++ t
          ∧ parse_line "## Hi".data
              = [⟨t, headingStyleName
                  (countLeading (fun c => c == '#') "## Hi".data), []⟩])
      ∧ (¬ HeadingSyntax "## Hi".data →
          parse_line "## Hi".data = parseContentLine "## Hi".data)) :=
  ⟨by decide,
    ⟨2, " ".data, "Hi".data, by decide, by decide, by decide,
      by decide, by decide, by decide⟩,
    by decide,
    c5_heading_iff "## Hi".data (by decide)⟩

/-- C1 (amended): for every line with no heading match and in which no
custom-style span, no link, and no standard emphasis/strong pattern
matches, the parser returns the whole line as a single normal segment, so
concatenating the text fields of all segments reproduces the line
exactly; when custom-style/link matches are present their delimiters are
consumed, but whitespace-only literal spans between matches are emitted
verbatim rather than trimmed (`"A {B}[strong] C"` keeps the segments
`"A "` and `" C"`). -/
theorem c1_concat_roundtrip :
    (∀ line : List Char, headerMatch line = none →
      finditerStyled line = [] → finditerLink line = [] →
      bestInline line 0 = none →
      concatTexts (parse_line line) = line)
    ∧ parse_line "A {B}[strong] C".data
        = [⟨"A ".data, normalStyle, []⟩, ⟨"B".data, "strong".data, []⟩,
           ⟨" C".data, normalStyle, []⟩]
    ∧ concatTexts (parse_line "A {B}[strong] C".data) = "A B C".data := by
  refine ⟨?_, by decide, by decide⟩
  intro line h1 h2 h3 h4
  by_cases hline : line = []
  · subst hline
    decide
  · have hlen : 0 < line.length := List.length_pos.mpr hline
    have hcm : collectMatches line = [] := by
      unfold collectMatches
      rw [h2, h3]
      rfl
    have hwm : walkMatches line [] 0 = [⟨line, normalStyle, []⟩] := by
      unfold walkMatches
      rw [if_pos hlen, List.drop_zero]
    have hfp : firstPass line = [⟨line, normalStyle, []⟩] := by
      simp only [firstPass, hcm, hwm]
      rw [if_neg (by simp)]
    have hsplit : split_inline_markdown_styles line = [⟨line, normalStyle, []⟩] := by
      unfold split_inline_markdown_styles
      rw [if_neg (by simp [hline])]
      have haux : splitInlineAux line 0 (line.length + 1)
          = [⟨line, normalStyle, []⟩] := by
        simp only [splitInlineAux]
        rw [if_pos hlen, h4, List.drop_zero]
      rw [haux]
      rw [List.filter_cons_of_pos (by simp [hline]), List.filter_nil]
    have hp : parse_line line = [⟨line, normalStyle, []⟩] := by
      unfold parse_line
      rw [h1]
      unfold parseContentLine
      rw [hfp]
      unfold foldEmphasis
      simp only [List.flatMap_cons, List.flatMap_nil, List.append_nil]
      rw [if_pos (by simp)]
      exact hsplit
    rw [hp]
    unfold concatTexts
    simp

/-- C1 counterexample: the line `"*a*"` contains no directive and no
heading syntax, yet the emphasis fold consumes the asterisks, so the
concatenated segment texts are `"a"`, not the original line. -/
theorem c1_counterexample :
    parse_line "*a*".data = [⟨"a".data, "emphasis".data, []⟩]
    ∧ concatTexts (parse_line "*a*".data) ≠ "*a*".data := by
  refine ⟨by decide, by decide⟩

/-- C1 witness: the amended round-trip applied at the plain line
`"just - text"`, in which no inline pattern matches. -/
theorem c1_witness :
    headerMatch "just - text".data = none
    ∧ finditerStyled "just - text".data = []
    ∧ finditerLink "just - text".data = []
    ∧ bestInline "just - text".data 0 = none
    ∧ concatTexts (parse_line "just - text".data) = "just - text".data :=
  ⟨by decide, by decide, by decide, by decide,
    c1_concat_roundtrip.1 "just - text".data
      (by decide) (by decide) (by decide) (by decide)⟩

/-! ## Evaluation checks -/

example : parse_line "A {B}[strong] C".data
    = [⟨"A ".data, normalStyle, []⟩, ⟨"B".data, "strong".data, []⟩,
       ⟨" C".data, normalStyle, []⟩] := by decide

example : parse_line "{*x*}[strong]".data
    = [⟨"*x*".data, "strong".data, []⟩] := by decide

example : parse_line "{*x*}[normal]".data
    = [⟨"x".data, "emphasis".data, []⟩] := by decide

example : parse_line "# Title".data
    = [⟨"Title".data, "heading1".data, []⟩] := by decide

example : parse_line "####### seven".data
    = [⟨"####### seven".data, normalStyle, []⟩] := by decide

example : parse_line "See [label](#anchor) here".data
    = [⟨"See ".data, normalStyle, []⟩, ⟨"label".data, normalStyle, "anchor".data⟩,
       ⟨" here".data, normalStyle, []⟩] := by decide

example : parse_line [] = [] := by decide

example : split_inline_markdown_styles "**a**".data
    = [⟨"a".data, "strong".data, []⟩] := by decide

example : split_inline_markdown_styles "* x *".data
    = [⟨"* x *".data, normalStyle, []⟩] := by decide

example : split_inline_markdown_styles "This is *italic* and **bold**.".data
    = [⟨"This is ".data, normalStyle, []⟩,
       ⟨"italic".data, "emphasis".data, []⟩,
       ⟨" and ".data, normalStyle, []⟩,
       ⟨"bold".data, "strong".data, []⟩,
       ⟨".".data, normalStyle, []⟩] := by decide

example : dispatchLine "1. first".data
    = .numberedItem [⟨"first".data, normalStyle, []⟩] 1 := by decide

example : dispatchLine "    2. nested".data
    = .numberedItem [⟨"nested".data, normalStyle, []⟩] 2 := by decide

example : dispatchLine "3) third".data
    = .numberedItem [⟨"third".data, normalStyle, []⟩] 1 := by decide

example : dispatchLine "- a *b*".data
    = .bulletItem [⟨"a ".data, normalStyle, []⟩, ⟨"b".data, "emphasis".data, []⟩] 1 := by decide

example : dispatchLine "  <<<Pagebreak>>> ".data = .pageBreak := by decide

example : dispatchLine "<<<index:Foo Bar>>>".data = .indexEntry "Foo Bar".data := by decide

example : dispatchLine "<<<bookmark:x1>>>".data = .bookmark "x1".data := by decide

example : dispatchLine "   ".data = .paragraph [] none := by decide

example : dispatchLine "# Title".data
    = .paragraph [⟨"Title".data, "heading1".data, []⟩] (some "title".data) := by decide

example : sanitize_bookmark_name "Hello, World!".data = "hello_world".data := by decide

example : sanitize_bookmark_name "123 go".data = "h_123_go".data := by decide

example : sanitize_bookmark_name "!!!".data = "bookmark".data := by decide

example : layoutInit "mm".data 210 297 10 10 10 10
    = .ok ⟨"mm".data, 210 * MM_TO_INCHES, 297 * MM_TO_INCHES, 10 * MM_TO_INCHES,
           10 * MM_TO_INCHES, 10 * MM_TO_INCHES, 10 * MM_TO_INCHES⟩ := by
  rfl
